import Mathlib

/-!
Verification of the sequence-search program (closure_ground).

The source program (src/src/main.rs) enumerates non-decreasing integer
sequences of length n over a scale range whose mean and sample standard
deviation fall in given tolerance windows.  The embedding below models the
i32 values as ℤ and the f64 running statistics as ℚ (the arithmetic the
program performs on them is +, -, *, / and comparisons, all of which are
modelled exactly; `sqrt` only ever appears at the root of a comparison, so
the two comparisons `sqrt x >= b` and `sqrt x > b` are encoded by the exact
rational tests `b ≤ 0 ∨ b^2 ≤ x` and `b < 0 ∨ b^2 < x`, and the encoding is
proved to agree with `Real.sqrt` by the bridge lemmas `sqrtGe_iff` and
`sqrtGt_iff`).
-/

namespace ClosureGround

/-- Exact encoding of the comparison `sqrt x >= b` (for the `f64::sqrt` of the
source, whose argument is always a nonnegative running statistic). -/
def sqrtGe (x b : ℚ) : Bool :=
  decide (b ≤ 0) || decide (b ^ 2 ≤ x)

/-- Exact encoding of the comparison `sqrt x > b`. -/
def sqrtGt (x b : ℚ) : Bool :=
  decide (b < 0) || decide (b ^ 2 < x)

/-- The encoding `sqrtGe` agrees with the real square root. -/
theorem sqrtGe_iff (x b : ℚ) : sqrtGe x b = true ↔ (b : ℝ) ≤ Real.sqrt x := by
  have h : sqrtGe x b = true ↔ (b ≤ 0 ∨ b ^ 2 ≤ x) := by simp [sqrtGe]
  rw [h]
  constructor
  · rintro (hb | hb)
    · exact le_trans (show (b : ℝ) ≤ 0 by exact_mod_cast hb) (Real.sqrt_nonneg _)
    · rcases le_or_lt b 0 with hb0 | hb0
      · exact le_trans (show (b : ℝ) ≤ 0 by exact_mod_cast hb0) (Real.sqrt_nonneg _)
      · rw [Real.le_sqrt' (show (0 : ℝ) < (b : ℝ) by exact_mod_cast hb0)]
        exact_mod_cast hb
  · intro hs
    rcases le_or_lt b 0 with hb0 | hb0
    · exact Or.inl hb0
    · right
      have := (Real.le_sqrt' (show (0 : ℝ) < (b : ℝ) by exact_mod_cast hb0)).mp hs
      exact_mod_cast this

/-- The encoding `sqrtGt` agrees with the real square root. -/
theorem sqrtGt_iff (x b : ℚ) : sqrtGt x b = true ↔ (b : ℝ) < Real.sqrt x := by
  have h : sqrtGt x b = true ↔ (b < 0 ∨ b ^ 2 < x) := by simp [sqrtGt]
  rw [h]
  constructor
  · rintro (hb | hb)
    · exact lt_of_lt_of_le (show (b : ℝ) < 0 by exact_mod_cast hb) (Real.sqrt_nonneg _)
    · rcases lt_or_le b 0 with hb0 | hb0
      · exact lt_of_lt_of_le (show (b : ℝ) < 0 by exact_mod_cast hb0) (Real.sqrt_nonneg _)
      · rw [Real.lt_sqrt (show (0 : ℝ) ≤ (b : ℝ) by exact_mod_cast hb0)]
        exact_mod_cast hb
  · intro hs
    rcases lt_or_le b 0 with hb0 | hb0
    · exact Or.inl hb0
    · right
      have := (Real.lt_sqrt (show (0 : ℝ) ≤ (b : ℝ) by exact_mod_cast hb0)).mp hs
      exact_mod_cast this

/-- Negated form of the `sqrtGt` bridge. -/
theorem sqrtGt_eq_false_iff (x b : ℚ) :
    sqrtGt x b = false ↔ Real.sqrt x ≤ (b : ℝ) := by
  rw [← not_lt, ← sqrtGt_iff x b]
  cases h : sqrtGt x b <;> simp [h]

/-- Mean of a list of integers, over ℚ (sum divided by length). -/
def meanQ (l : List ℤ) : ℚ := (l.sum : ℚ) / (l.length : ℚ)

/-- Two-pass sum of squared deviations from the mean: the quantity the
running `m2` of the source tracks incrementally. -/
def ssd (l : List ℤ) : ℚ := (l.map (fun x : ℤ => ((x : ℚ) - meanQ l) ^ 2)).sum

/-- Sum of squares of a list, over ℚ (helper for the closed form of `ssd`). -/
def sumSq (l : List ℤ) : ℚ := (l.map (fun x : ℤ => (x : ℚ) ^ 2)).sum

theorem sum_sq_dev (m : ℚ) (l : List ℤ) :
    (l.map (fun x : ℤ => ((x : ℚ) - m) ^ 2)).sum
      = sumSq l - 2 * m * (l.sum : ℚ) + (l.length : ℚ) * m ^ 2 := by
  induction l with
  | nil => simp [sumSq]
  | cons a t ih =>
    simp only [List.map_cons, List.sum_cons, List.length_cons, List.sum_cons] at *
    rw [ih]
    unfold sumSq
    simp only [List.map_cons, List.sum_cons]
    push_cast
    ring

theorem ssd_closed (l : List ℤ) (h : l ≠ []) :
    ssd l = sumSq l - (l.sum : ℚ) ^ 2 / (l.length : ℚ) := by
  have hl : (l.length : ℚ) ≠ 0 := by
    have : 0 < l.length := List.length_pos.mpr h
    exact_mod_cast Nat.pos_iff_ne_zero.mp this
  unfold ssd meanQ
  rw [sum_sq_dev]
  field_simp
  ring

theorem ssd_nonneg (l : List ℤ) : 0 ≤ ssd l := by
  apply List.sum_nonneg
  intro x hx
  rcases List.mem_map.mp hx with ⟨a, _, rfl⟩
  positivity

/-- The Welford single-step identity: appending `v` to a nonempty list adds
exactly `delta * delta2` to the sum of squared deviations, where `delta`
uses the old mean and `delta2` the new mean. -/
theorem ssd_concat (l : List ℤ) (h : l ≠ []) (v : ℤ) :
    ssd (l ++ [v])
      = ssd l + ((v : ℚ) - (l.sum : ℚ) / (l.length : ℚ))
          * ((v : ℚ) - ((l.sum : ℚ) + (v : ℚ)) / ((l.length : ℚ) + 1)) := by
  have h2 : l ++ [v] ≠ [] := by simp
  have hk : (0 : ℚ) < (l.length : ℚ) := by
    have : 0 < l.length := List.length_pos.mpr h
    exact_mod_cast this
  have hk0 : (l.length : ℚ) ≠ 0 := ne_of_gt hk
  have hk1 : (l.length : ℚ) + 1 ≠ 0 := by positivity
  rw [ssd_closed _ h2, ssd_closed _ h]
  have hsum : ((l ++ [v]).sum : ℚ) = (l.sum : ℚ) + (v : ℚ) := by
    rw [List.sum_append]
    push_cast
    simp
  have hsq : sumSq (l ++ [v]) = sumSq l + (v : ℚ) ^ 2 := by
    unfold sumSq
    rw [List.map_append, List.sum_append]
    simp
  have hlen : ((l ++ [v]).length : ℚ) = (l.length : ℚ) + 1 := by
    rw [List.length_append]
    push_cast
    simp
  rw [hsum, hsq, hlen]
  field_simp
  ring

/-- The Welford increment is nonnegative: `m2` never decreases. -/
theorem welford_delta_nonneg (l : List ℤ) (h : l ≠ []) (v : ℤ) :
    0 ≤ ((v : ℚ) - (l.sum : ℚ) / (l.length : ℚ))
          * ((v : ℚ) - ((l.sum : ℚ) + (v : ℚ)) / ((l.length : ℚ) + 1)) := by
  have hk : (0 : ℚ) < (l.length : ℚ) := by
    have : 0 < l.length := List.length_pos.mpr h
    exact_mod_cast this
  have hk0 : (l.length : ℚ) ≠ 0 := ne_of_gt hk
  have hk1 : (0 : ℚ) < (l.length : ℚ) + 1 := by positivity
  have key : ((v : ℚ) - ((l.sum : ℚ) + (v : ℚ)) / ((l.length : ℚ) + 1))
      = (l.length : ℚ) * ((v : ℚ) - (l.sum : ℚ) / (l.length : ℚ)) / ((l.length : ℚ) + 1) := by
    field_simp
    ring
  rw [key]
  have : ((v : ℚ) - (l.sum : ℚ) / (l.length : ℚ))
      * ((l.length : ℚ) * ((v : ℚ) - (l.sum : ℚ) / (l.length : ℚ)) / ((l.length : ℚ) + 1))
      = (l.length : ℚ) * ((v : ℚ) - (l.sum : ℚ) / (l.length : ℚ)) ^ 2 / ((l.length : ℚ) + 1) := by
    ring
  rw [this]
  positivity

/-- `ssd` never decreases when a list is extended on the right. -/
theorem ssd_le_ssd_append (l t : List ℤ) (h : l ≠ []) : ssd l ≤ ssd (l ++ t) := by
  induction t generalizing l with
  | nil => simp
  | cons c t ih =>
    have h1 : l ++ c :: t = (l ++ [c]) ++ t := by simp
    rw [h1]
    have h2 : l ++ [c] ≠ [] := by simp
    refine le_trans ?_ (ih (l ++ [c]) h2)
    rw [ssd_concat l h c]
    have := welford_delta_nonneg l h c
    linarith

/-- The Rust struct `Combination` (main.rs lines 10-15): the partial
sequence plus its running sum and running M2 (Welford accumulator). -/
structure Combination where
  values : List ℤ
  running_sum : ℚ
  running_m2 : ℚ
deriving DecidableEq

/-- The parameters `dfs_branch` receives besides the seed (main.rs lines
31-39), bundled for convenience.  `min_scale_sum` and `max_scale_sum` are
the precomputed bound tables, `n_1 = n - 1` and `max_scale_1 = max_scale + 1`
as computed by `parallel_dfs` (lines 132-133). -/
structure DfsParams where
  n : ℕ
  target_sum_upper : ℚ
  target_sum_lower : ℚ
  target_sd_upper : ℚ
  target_sd_lower : ℚ
  min_scale_sum : List ℤ
  max_scale_sum : List ℤ
  n_1 : ℕ
  max_scale_1 : ℤ
deriving DecidableEq

/-- `current.values.last().unwrap()` (line 64).  The Rust call panics on an
empty vector; the default 0 is never used on reachable states (claim C10
proves every popped state is nonempty). -/
def lastD (c : Combination) : ℤ := c.values.getLast?.getD 0

/-- Lines 81-84 of the source: the incremental (Welford) update of `m2`
for appending `next_value`, given that `next_n = values.len() + 1` at the
call site. -/
def nextM2 (current : Combination) (next_n : ℕ) (next_value : ℤ) : ℚ :=
  let next_sum := current.running_sum + (next_value : ℚ)
  let next_mean := next_sum / (next_n : ℚ)
  let delta := (next_value : ℚ) - current.running_sum / (current.values.length : ℚ)
  let delta2 := (next_value : ℚ) - next_mean
  current.running_m2 + delta * delta2

/-- Lines 92-99 of the source: the child state pushed for candidate
`next_value`. -/
def mkChild (current : Combination) (next_n : ℕ) (next_value : ℤ) : Combination :=
  { values := current.values ++ [next_value]
    running_sum := current.running_sum + (next_value : ℚ)
    running_m2 := nextM2 current next_n next_value }

/-- Lines 67-100 of the source: the candidate loop
`for next_value in last_value..max_scale_1`, including the `break` on the
min-sum bound, the two `continue`s (max-sum bound and SD upper bound), and
the push of the surviving child.  The returned list holds the pushed
children in the order the loop pushes them (increasing candidate). -/
def candLoop (p : DfsParams) (current : Combination) (n_left : ℕ) (next_n : ℕ)
    (next_value : ℤ) : List Combination :=
  if h : next_value < p.max_scale_1 then
    let next_sum := current.running_sum + (next_value : ℚ)
    if next_sum + ((p.min_scale_sum.getD n_left 0 : ℤ) : ℚ) > p.target_sum_upper then
      []
    else if next_sum + ((p.max_scale_sum.getD n_left 0 : ℤ) : ℚ) < p.target_sum_lower then
      candLoop p current n_left next_n (next_value + 1)
    else if sqrtGt (nextM2 current next_n next_value / (p.n_1 : ℚ)) p.target_sd_upper then
      candLoop p current n_left next_n (next_value + 1)
    else
      mkChild current next_n next_value :: candLoop p current n_left next_n (next_value + 1)
  else []
termination_by (p.max_scale_1 - next_value).toNat
decreasing_by all_goals omega

/-- The break condition of line 71: `minmean > target_sum_upper`. -/
def brkCond (p : DfsParams) (current : Combination) (n_left : ℕ) (c : ℤ) : Prop :=
  current.running_sum + (c : ℚ) + ((p.min_scale_sum.getD n_left 0 : ℤ) : ℚ) > p.target_sum_upper

/-- The skip condition of line 76: `maxmean < target_sum_lower`. -/
def skipLowCond (p : DfsParams) (current : Combination) (n_left : ℕ) (c : ℤ) : Prop :=
  current.running_sum + (c : ℚ) + ((p.max_scale_sum.getD n_left 0 : ℤ) : ℚ) < p.target_sum_lower

/-- The skip condition of line 88: `min_sd > target_sd_upper`. -/
def skipSdCond (p : DfsParams) (current : Combination) (next_n : ℕ) (c : ℤ) : Prop :=
  sqrtGt (nextM2 current next_n c / (p.n_1 : ℚ)) p.target_sd_upper = true

instance (p : DfsParams) (current : Combination) (n_left : ℕ) (c : ℤ) :
    Decidable (brkCond p current n_left c) := by unfold brkCond; infer_instance

instance (p : DfsParams) (current : Combination) (n_left : ℕ) (c : ℤ) :
    Decidable (skipLowCond p current n_left c) := by unfold skipLowCond; infer_instance

instance (p : DfsParams) (current : Combination) (next_n : ℕ) (c : ℤ) :
    Decidable (skipSdCond p current next_n c) := by unfold skipSdCond; infer_instance

/-- The break condition is monotone in the candidate. -/
theorem brkCond_mono (p : DfsParams) (current : Combination) (n_left : ℕ)
    {c c' : ℤ} (hcc : c ≤ c') (h : brkCond p current n_left c) :
    brkCond p current n_left c' := by
  unfold brkCond at *
  have : (c : ℚ) ≤ (c' : ℚ) := by exact_mod_cast hcc
  linarith

/-- Membership characterization of the candidate loop: exactly the
candidates at least the start value, below `max_scale_1`, passing all three
prune checks, are pushed (the `break` is absorbed by the monotonicity of
the min-sum bound in the candidate). -/
theorem mem_candLoop (p : DfsParams) (current : Combination) (n_left : ℕ) (next_n : ℕ)
    (v0 : ℤ) (x : Combination) :
    x ∈ candLoop p current n_left next_n v0
      ↔ ∃ c : ℤ, v0 ≤ c ∧ c < p.max_scale_1 ∧ ¬ brkCond p current n_left c
          ∧ ¬ skipLowCond p current n_left c ∧ ¬ skipSdCond p current next_n c
          ∧ x = mkChild current next_n c := by
  induction v0 using candLoop.induct p current n_left next_n with
  | case1 v0 h next_sum hbrk =>
    rw [candLoop]
    simp only [h, dite_true]
    rw [if_pos hbrk]
    simp only [List.not_mem_nil, false_iff]
    rintro ⟨c, hv0c, hlt, hnbrk, -, -, -⟩
    exact hnbrk (brkCond_mono p current n_left hv0c hbrk)
  | case2 v0 h next_sum hbrk hskip ih =>
    rw [candLoop]
    simp only [h, dite_true]
    rw [if_neg hbrk, if_pos hskip]
    rw [ih]
    constructor
    · rintro ⟨c, hc1, hc2, hc3, hc4, hc5, hc6⟩
      exact ⟨c, by omega, hc2, hc3, hc4, hc5, hc6⟩
    · rintro ⟨c, hc1, hc2, hc3, hc4, hc5, hc6⟩
      refine ⟨c, ?_, hc2, hc3, hc4, hc5, hc6⟩
      rcases eq_or_lt_of_le hc1 with rfl | hlt
      · exact absurd hskip hc4
      · omega
  | case3 v0 h next_sum hbrk hskip hsd ih =>
    rw [candLoop]
    simp only [h, dite_true]
    rw [if_neg hbrk, if_neg hskip, if_pos hsd]
    rw [ih]
    constructor
    · rintro ⟨c, hc1, hc2, hc3, hc4, hc5, hc6⟩
      exact ⟨c, by omega, hc2, hc3, hc4, hc5, hc6⟩
    · rintro ⟨c, hc1, hc2, hc3, hc4, hc5, hc6⟩
      refine ⟨c, ?_, hc2, hc3, hc4, hc5, hc6⟩
      rcases eq_or_lt_of_le hc1 with rfl | hlt
      · exact absurd hsd hc5
      · omega
  | case4 v0 h next_sum hbrk hskip hsd ih =>
    rw [candLoop]
    simp only [h, dite_true]
    rw [if_neg hbrk, if_neg hskip, if_neg hsd]
    simp only [List.mem_cons]
    rw [ih]
    constructor
    · rintro (rfl | ⟨c, hc1, hc2, hc3, hc4, hc5, hc6⟩)
      · exact ⟨v0, le_refl v0, h, hbrk, hskip, hsd, rfl⟩
      · exact ⟨c, by omega, hc2, hc3, hc4, hc5, hc6⟩
    · rintro ⟨c, hc1, hc2, hc3, hc4, hc5, hc6⟩
      rcases eq_or_lt_of_le hc1 with rfl | hlt
      · exact Or.inl hc6
      · exact Or.inr ⟨c, by omega, hc2, hc3, hc4, hc5, hc6⟩
  | case5 v0 h =>
    rw [candLoop]
    simp only [h, dite_false]
    simp only [List.not_mem_nil, false_iff]
    rintro ⟨c, hv0c, hlt, -⟩
    omega

theorem getLastD_mem (l : List ℤ) (h : l ≠ []) : l.getLast?.getD 0 ∈ l := by
  induction l with
  | nil => exact absurd rfl h
  | cons a t ih =>
    cases t with
    | nil => simp
    | cons b t2 =>
      rw [List.getLast?_cons_cons]
      exact List.mem_cons_of_mem a (ih (by simp))

theorem le_getLastD_of_sorted (l : List ℤ) (hs : l.Sorted (· ≤ ·)) :
    ∀ x ∈ l, x ≤ l.getLast?.getD 0 := by
  induction l with
  | nil => simp
  | cons a t ih =>
    rw [List.sorted_cons] at hs
    intro x hx
    cases t with
    | nil =>
      simp at hx
      simp [hx]
    | cons b t2 =>
      rw [List.getLast?_cons_cons]
      rcases List.mem_cons.mp hx with rfl | hx2
      · exact le_trans (hs.1 b (by simp)) (ih hs.2 b (by simp))
      · exact ih hs.2 x hx2

/-- The bound table `min_scale_sum` (main.rs lines 125-127) and, with the
other scale, `max_scale_sum` (lines 128-130): entry `x` is `scale * x`. -/
def scale_sum_table (scale : ℤ) (n : ℕ) : List ℤ :=
  (List.range n).map (fun x : ℕ => scale * (x : ℤ))

theorem scale_sum_table_getD (scale : ℤ) (n k : ℕ) (hk : k < n) :
    (scale_sum_table scale n).getD k 0 = scale * (k : ℤ) := by
  unfold scale_sum_table
  rw [List.getD_eq_getElem?_getD, List.getElem?_map, List.getElem?_range hk]
  rfl

theorem scale_sum_table_length (scale : ℤ) (n : ℕ) :
    (scale_sum_table scale n).length = n := by
  simp [scale_sum_table]

/-- Well-formedness of the parameters as `parallel_dfs` (lines 119-133)
prepares them for `dfs_branch`: the tables are the precomputed scale sums,
`n_1 = n - 1` and `max_scale_1 = max_scale + 1`. -/
structure GoodParams (p : DfsParams) (min_scale max_scale : ℤ) : Prop where
  two_le_n : 2 ≤ p.n
  hn1 : p.n_1 = p.n - 1
  hmin_table : p.min_scale_sum = scale_sum_table min_scale p.n
  hmax_table : p.max_scale_sum = scale_sum_table max_scale p.n
  hms1 : p.max_scale_1 = max_scale + 1
  hscale : min_scale ≤ max_scale

/-- Invariant of every state on the `dfs_branch` stack: at least the two
seed elements, at most `n` elements, sorted, in scale range, and the running
statistics are exactly the sum and the two-pass sum of squared deviations of
the stored values. -/
structure GoodComb (p : DfsParams) (min_scale max_scale : ℤ) (c : Combination) : Prop where
  two_le_len : 2 ≤ c.values.length
  len_le_n : c.values.length ≤ p.n
  sorted : c.values.Sorted (· ≤ ·)
  lb : ∀ v ∈ c.values, min_scale ≤ v
  ub : ∀ v ∈ c.values, v ≤ max_scale
  hsum : c.running_sum = (c.values.sum : ℚ)
  hm2 : c.running_m2 = ssd c.values

theorem mkChild_values (current : Combination) (next_n : ℕ) (c : ℤ) :
    (mkChild current next_n c).values = current.values ++ [c] := rfl

theorem mkChild_lastD (current : Combination) (next_n : ℕ) (c : ℤ) :
    lastD (mkChild current next_n c) = c := by
  unfold lastD
  rw [mkChild_values, List.getLast?_concat]
  rfl

theorem mkChild_length (current : Combination) (next_n : ℕ) (c : ℤ) :
    (mkChild current next_n c).values.length = current.values.length + 1 := by
  rw [mkChild_values, List.length_append]
  rfl

/-- Children created by the candidate loop keep the stack invariant. -/
theorem mkChild_good {p : DfsParams} {min_scale max_scale : ℤ} {current : Combination}
    (hp : GoodParams p min_scale max_scale)
    (hc : GoodComb p min_scale max_scale current)
    (hlen : current.values.length < p.n)
    {c : ℤ} (h1 : lastD current ≤ c) (h2 : c < p.max_scale_1) :
    GoodComb p min_scale max_scale (mkChild current (current.values.length + 1) c) := by
  have hne : current.values ≠ [] := by
    intro habs
    have h2l := hc.two_le_len
    rw [habs] at h2l
    simp at h2l
  have hmemlast : lastD current ∈ current.values := getLastD_mem _ hne
  have hle_last : ∀ x ∈ current.values, x ≤ lastD current :=
    le_getLastD_of_sorted _ hc.sorted
  have hcle : c ≤ max_scale := by
    have := hp.hms1
    omega
  constructor
  · rw [mkChild_length]
    have := hc.two_le_len
    omega
  · rw [mkChild_length]
    omega
  · rw [mkChild_values]
    rw [List.Sorted, List.pairwise_append]
    refine ⟨hc.sorted, by simp, ?_⟩
    intro a ha b hb
    simp at hb
    subst hb
    exact le_trans (hle_last a ha) h1
  · rw [mkChild_values]
    intro v hv
    rcases List.mem_append.mp hv with hv1 | hv2
    · exact hc.lb v hv1
    · simp at hv2
      subst hv2
      exact le_trans (le_trans (hc.lb _ hmemlast) (hle_last _ hmemlast)) h1
  · rw [mkChild_values]
    intro v hv
    rcases List.mem_append.mp hv with hv1 | hv2
    · exact hc.ub v hv1
    · simp at hv2
      omega
  · show current.running_sum + (c : ℚ) = _
    rw [mkChild_values, List.sum_append, hc.hsum]
    push_cast
    simp
  · show nextM2 current (current.values.length + 1) c = _
    rw [mkChild_values, ssd_concat _ hne c]
    unfold nextM2
    rw [hc.hm2, hc.hsum]
    push_cast
    ring

/-- Weight of one stack entry for the termination measure of the DFS loop:
it strictly dominates the total weight of the children the entry can push. -/
def phiComb (p : DfsParams) (c : Combination) : ℕ :=
  ((p.max_scale_1 - lastD c).toNat + 2) ^ (p.n + 1 - c.values.length)

/-- Termination measure of the DFS loop: total weight of the stack. -/
def phiStack (p : DfsParams) (stack : List Combination) : ℕ :=
  (stack.map (phiComb p)).sum

theorem phiComb_pos (p : DfsParams) (c : Combination) : 0 < phiComb p c := by
  unfold phiComb
  positivity

theorem candLoop_phi_le (p : DfsParams) (current : Combination) (n_left next_n : ℕ)
    (v0 : ℤ) :
    ((candLoop p current n_left next_n v0).map (phiComb p)).sum
      ≤ (p.max_scale_1 - v0).toNat
          * ((p.max_scale_1 - v0).toNat + 2) ^ (p.n + 1 - (current.values.length + 1)) := by
  induction v0 using candLoop.induct p current n_left next_n with
  | case1 v0 h next_sum hbrk =>
    rw [candLoop]
    simp only [h, dite_true]
    rw [if_pos hbrk]
    simp
  | case2 v0 h next_sum hbrk hskip ih =>
    rw [candLoop]
    simp only [h, dite_true]
    rw [if_neg hbrk, if_pos hskip]
    refine le_trans ih ?_
    have h1 : (p.max_scale_1 - (v0 + 1)).toNat ≤ (p.max_scale_1 - v0).toNat := by omega
    exact Nat.mul_le_mul h1 (Nat.pow_le_pow_left (by omega) _)
  | case3 v0 h next_sum hbrk hskip hsd ih =>
    rw [candLoop]
    simp only [h, dite_true]
    rw [if_neg hbrk, if_neg hskip, if_pos hsd]
    refine le_trans ih ?_
    have h1 : (p.max_scale_1 - (v0 + 1)).toNat ≤ (p.max_scale_1 - v0).toNat := by omega
    exact Nat.mul_le_mul h1 (Nat.pow_le_pow_left (by omega) _)
  | case4 v0 h next_sum hbrk hskip hsd ih =>
    rw [candLoop]
    simp only [h, dite_true]
    rw [if_neg hbrk, if_neg hskip, if_neg hsd]
    rw [List.map_cons, List.sum_cons]
    have hphi : phiComb p (mkChild current next_n v0)
        = ((p.max_scale_1 - v0).toNat + 2) ^ (p.n + 1 - (current.values.length + 1)) := by
      unfold phiComb
      rw [mkChild_lastD, mkChild_length]
    rw [hphi]
    set W := (p.max_scale_1 - v0).toNat with hW
    set e := p.n + 1 - (current.values.length + 1) with he
    have hW1 : 1 ≤ W := by omega
    have hW' : (p.max_scale_1 - (v0 + 1)).toNat = W - 1 := by omega
    have hrest : (List.map (phiComb p) (candLoop p current n_left next_n (v0 + 1))).sum
        ≤ (W - 1) * (W + 2) ^ e := by
      rw [hW'] at ih
      exact le_trans ih (Nat.mul_le_mul (le_refl _) (Nat.pow_le_pow_left (by omega) _))
    calc (W + 2) ^ e + (List.map (phiComb p) (candLoop p current n_left next_n (v0 + 1))).sum
        ≤ (W + 2) ^ e + (W - 1) * (W + 2) ^ e := Nat.add_le_add_left hrest _
      _ = (1 + (W - 1)) * (W + 2) ^ e := by ring
      _ = W * (W + 2) ^ e := by
          have h1w : 1 + (W - 1) = W := by omega
          rw [h1w]
  | case5 v0 h =>
    rw [candLoop]
    simp only [h, dite_false]
    simp

theorem phiStack_extension_lt (p : DfsParams) (current : Combination) (rest : List Combination)
    (n_left next_n : ℕ) (hlen : current.values.length < p.n) :
    phiStack p ((candLoop p current n_left next_n (lastD current)).reverse ++ rest)
      < phiStack p (current :: rest) := by
  unfold phiStack
  rw [List.map_append, List.sum_append, List.map_reverse, List.sum_reverse, List.map_cons,
    List.sum_cons]
  have hch := candLoop_phi_le p current n_left next_n (lastD current)
  refine Nat.add_lt_add_right (lt_of_le_of_lt hch ?_) _
  set W := (p.max_scale_1 - lastD current).toNat with hW
  have he1 : p.n + 1 - (current.values.length + 1) = p.n - current.values.length := by omega
  have he2 : p.n + 1 - current.values.length = (p.n - current.values.length) + 1 := by omega
  unfold phiComb
  rw [← hW, he1, he2, pow_succ]
  have hpow : 0 < (W + 2) ^ (p.n - current.values.length) := by positivity
  calc W * (W + 2) ^ (p.n - current.values.length)
      < (W + 2) * (W + 2) ^ (p.n - current.values.length) := by
        exact Nat.mul_lt_mul_of_lt_of_le (by omega) (le_refl _) hpow
    _ = (W + 2) ^ (p.n - current.values.length) * (W + 2) := by ring

/-- The main loop of `dfs_branch` (main.rs lines 51-101): pop the most
recent state; if it has reached length `n`, accept it into the results when
the sample SD clears the lower bound (lines 53-59); otherwise run the
candidate loop and push its children (lines 62-100).  The stack top is the
list head; the children are pushed in increasing candidate order, so they
are prepended reversed. -/
def dfsRun (p : DfsParams) (stack : List Combination) (results : List (List ℤ)) :
    List (List ℤ) :=
  match stack with
  | [] => results
  | current :: rest =>
    if p.n ≤ current.values.length then
      if sqrtGe (current.running_m2 / (p.n_1 : ℚ)) p.target_sd_lower then
        dfsRun p rest (results ++ [current.values])
      else
        dfsRun p rest results
    else
      dfsRun p
        ((candLoop p current (p.n_1 - current.values.length) (current.values.length + 1)
          (lastD current)).reverse ++ rest) results
termination_by phiStack p stack
decreasing_by
  · unfold phiStack
    rw [List.map_cons, List.sum_cons]
    have := phiComb_pos p current
    omega
  · unfold phiStack
    rw [List.map_cons, List.sum_cons]
    have := phiComb_pos p current
    omega
  · exact phiStack_extension_lt p current rest _ _ (by omega)

/-- `dfs_branch` (main.rs lines 27-104) with its original argument list:
runs the DFS loop from the seed combination and returns the branch's
results. -/
def dfs_branch (start_combination : List ℤ) (running_sum_init running_m2_init : ℚ)
    (n : ℕ) (target_sum_upper target_sum_lower target_sd_upper target_sd_lower : ℚ)
    (min_scale_sum max_scale_sum : List ℤ) (n_1 : ℕ) (max_scale_1 : ℤ) :
    List (List ℤ) :=
  dfsRun
    { n := n, target_sum_upper := target_sum_upper, target_sum_lower := target_sum_lower
      target_sd_upper := target_sd_upper, target_sd_lower := target_sd_lower
      min_scale_sum := min_scale_sum, max_scale_sum := max_scale_sum
      n_1 := n_1, max_scale_1 := max_scale_1 }
    [{ values := start_combination, running_sum := running_sum_init
       running_m2 := running_m2_init }]
    []

/-- The full loop state of `dfs_branch`: the explicit work stack and the
results collected so far. -/
structure DfsState where
  stack : List Combination
  results : List (List ℤ)
deriving DecidableEq

/-- One iteration of the `while let Some(current) = stack.pop_back()` loop
(main.rs lines 51-101), as a total step function; on an empty stack it is
the identity (the loop has exited). -/
def stepState (p : DfsParams) (s : DfsState) : DfsState :=
  match s with
  | ⟨[], r⟩ => ⟨[], r⟩
  | ⟨current :: rest, r⟩ =>
    if p.n ≤ current.values.length then
      if sqrtGe (current.running_m2 / (p.n_1 : ℚ)) p.target_sd_lower then
        ⟨rest, r ++ [current.values]⟩
      else
        ⟨rest, r⟩
    else
      ⟨(candLoop p current (p.n_1 - current.values.length) (current.values.length + 1)
        (lastD current)).reverse ++ rest, r⟩

theorem candLoop_mem_length {p : DfsParams} {current : Combination} {n_left next_n : ℕ}
    {v0 : ℤ} {x : Combination} (hx : x ∈ candLoop p current n_left next_n v0) :
    x.values.length = current.values.length + 1 := by
  rcases (mem_candLoop p current n_left next_n v0 x).mp hx with ⟨c, -, -, -, -, -, rfl⟩
  exact mkChild_length current next_n c

/-- Recursive (per-subtree) view of the DFS: the list of results the search
produces from one state.  Same terminal test and same candidate loop as
`dfsRun`; used to reason about the loop via `mem_dfsRun`. -/
def explore (p : DfsParams) (c : Combination) : List (List ℤ) :=
  if p.n ≤ c.values.length then
    if sqrtGe (c.running_m2 / (p.n_1 : ℚ)) p.target_sd_lower then [c.values] else []
  else
    ((candLoop p c (p.n_1 - c.values.length) (c.values.length + 1) (lastD c)).attach.map
      (fun ch => explore p ch.1)).flatten
termination_by p.n - c.values.length
decreasing_by
  have := candLoop_mem_length ch.2
  omega

theorem explore_terminal {p : DfsParams} {c : Combination} (h : p.n ≤ c.values.length) :
    explore p c
      = if sqrtGe (c.running_m2 / (p.n_1 : ℚ)) p.target_sd_lower then [c.values] else [] := by
  rw [explore]
  simp [h]

theorem mem_explore_extension {p : DfsParams} {c : Combination}
    (h : c.values.length < p.n) (s : List ℤ) :
    s ∈ explore p c
      ↔ ∃ x ∈ candLoop p c (p.n_1 - c.values.length) (c.values.length + 1) (lastD c),
          s ∈ explore p x := by
  rw [explore]
  rw [if_neg (not_le.mpr h)]
  simp only [List.mem_flatten, List.mem_map, List.mem_attach, true_and, Subtype.exists,
    exists_prop]
  constructor
  · rintro ⟨l, ⟨x, hx, rfl⟩, hs⟩
    exact ⟨x, hx, hs⟩
  · rintro ⟨x, hx, hs⟩
    exact ⟨explore p x, ⟨x, hx, rfl⟩, hs⟩

/-- Results of the stack loop = accumulated results plus the union of the
per-subtree results of the states on the stack. -/
theorem mem_dfsRun (p : DfsParams) (stack : List Combination) (res : List (List ℤ))
    (s : List ℤ) :
    s ∈ dfsRun p stack res ↔ s ∈ res ∨ ∃ c ∈ stack, s ∈ explore p c := by
  induction stack, res using dfsRun.induct p with
  | case1 res =>
    rw [dfsRun]
    simp
  | case2 res current rest hn hsd ih =>
    rw [dfsRun]
    simp only [if_pos hn, if_pos hsd]
    rw [ih]
    have hexp : explore p current = [current.values] := by
      rw [explore_terminal hn, if_pos hsd]
    constructor
    · rintro (hs | ⟨c, hc, hsc⟩)
      · rcases List.mem_append.mp hs with hs1 | hs2
        · exact Or.inl hs1
        · refine Or.inr ⟨current, List.mem_cons_self _ _, ?_⟩
          rw [hexp]
          exact hs2
      · exact Or.inr ⟨c, List.mem_cons_of_mem _ hc, hsc⟩
    · rintro (hs | ⟨c, hc, hsc⟩)
      · exact Or.inl (List.mem_append.mpr (Or.inl hs))
      · rcases List.mem_cons.mp hc with rfl | hc2
        · rw [hexp] at hsc
          exact Or.inl (List.mem_append.mpr (Or.inr hsc))
        · exact Or.inr ⟨c, hc2, hsc⟩
  | case3 res current rest hn hsd ih =>
    rw [dfsRun]
    simp only [if_pos hn, if_neg hsd]
    rw [ih]
    have hexp : explore p current = [] := by
      rw [explore_terminal hn, if_neg hsd]
    constructor
    · rintro (hs | ⟨c, hc, hsc⟩)
      · exact Or.inl hs
      · exact Or.inr ⟨c, List.mem_cons_of_mem _ hc, hsc⟩
    · rintro (hs | ⟨c, hc, hsc⟩)
      · exact Or.inl hs
      · rcases List.mem_cons.mp hc with rfl | hc2
        · rw [hexp] at hsc
          simp at hsc
        · exact Or.inr ⟨c, hc2, hsc⟩
  | case4 res current rest hn ih =>
    rw [dfsRun]
    rw [if_neg hn]
    rw [ih]
    have hlen : current.values.length < p.n := by omega
    constructor
    · rintro (hs | ⟨c, hc, hsc⟩)
      · exact Or.inl hs
      · rcases List.mem_append.mp hc with hc1 | hc2
        · refine Or.inr ⟨current, List.mem_cons_self _ _, ?_⟩
          rw [mem_explore_extension hlen]
          exact ⟨c, List.mem_reverse.mp hc1, hsc⟩
        · exact Or.inr ⟨c, List.mem_cons_of_mem _ hc2, hsc⟩
    · rintro (hs | ⟨c, hc, hsc⟩)
      · exact Or.inl hs
      · rcases List.mem_cons.mp hc with rfl | hc2
        · rw [mem_explore_extension hlen] at hsc
          rcases hsc with ⟨x, hx, hsx⟩
          exact Or.inr ⟨x, List.mem_append.mpr (Or.inl (List.mem_reverse.mpr hx)), hsx⟩
        · exact Or.inr ⟨c, List.mem_append.mpr (Or.inr hc2), hsc⟩

/-- The loop terminates: iterating the step function from any state empties
the stack in finitely many iterations, ending with exactly the results that
`dfsRun` returns. -/
theorem dfsRun_iterate (p : DfsParams) (stack : List Combination) (res : List (List ℤ)) :
    ∃ k : ℕ, (stepState p)^[k] ⟨stack, res⟩ = ⟨[], dfsRun p stack res⟩ := by
  induction stack, res using dfsRun.induct p with
  | case1 res =>
    refine ⟨0, ?_⟩
    rw [dfsRun]
    rfl
  | case2 res current rest hn hsd ih =>
    obtain ⟨k, hk⟩ := ih
    refine ⟨k + 1, ?_⟩
    rw [Function.iterate_succ_apply]
    have hstep : stepState p ⟨current :: rest, res⟩ = ⟨rest, res ++ [current.values]⟩ := by
      simp only [stepState, if_pos hn, if_pos hsd]
    rw [hstep, hk]
    conv_rhs => rw [dfsRun]
    rw [if_pos hn, if_pos hsd]
  | case3 res current rest hn hsd ih =>
    obtain ⟨k, hk⟩ := ih
    refine ⟨k + 1, ?_⟩
    rw [Function.iterate_succ_apply]
    have hstep : stepState p ⟨current :: rest, res⟩ = ⟨rest, res⟩ := by
      simp only [stepState, if_pos hn, if_neg hsd]
    rw [hstep, hk]
    conv_rhs => rw [dfsRun]
    rw [if_pos hn, if_neg hsd]
  | case4 res current rest hn ih =>
    obtain ⟨k, hk⟩ := ih
    refine ⟨k + 1, ?_⟩
    rw [Function.iterate_succ_apply]
    have hstep : stepState p ⟨current :: rest, res⟩
        = ⟨(candLoop p current (p.n_1 - current.values.length) (current.values.length + 1)
            (lastD current)).reverse ++ rest, res⟩ := by
      simp only [stepState, if_neg hn]
    rw [hstep, hk]
    conv_rhs => rw [dfsRun]
    rw [if_neg hn]

/-- One loop step keeps the stack invariant. -/
theorem stepState_stack_good {p : DfsParams} {min_scale max_scale : ℤ}
    (hp : GoodParams p min_scale max_scale) (st : DfsState)
    (h : ∀ c ∈ st.stack, GoodComb p min_scale max_scale c) :
    ∀ c ∈ (stepState p st).stack, GoodComb p min_scale max_scale c := by
  rcases st with ⟨stack, r⟩
  cases stack with
  | nil =>
    intro c hc
    exact absurd hc (by simp [stepState])
  | cons current rest =>
    have hcur := h current (List.mem_cons_self _ _)
    have hrest : ∀ c ∈ rest, GoodComb p min_scale max_scale c := by
      intro c hc
      exact h c (List.mem_cons_of_mem _ hc)
    intro c hc
    by_cases hn : p.n ≤ current.values.length
    · by_cases hsd : sqrtGe (current.running_m2 / (p.n_1 : ℚ)) p.target_sd_lower = true
      · simp only [stepState, if_pos hn, if_pos hsd] at hc
        exact hrest c hc
      · simp only [stepState, if_pos hn, if_neg hsd] at hc
        exact hrest c hc
    · simp only [stepState, if_neg hn] at hc
      rcases List.mem_append.mp hc with hc1 | hc2
      · rcases (mem_candLoop p current _ _ _ c).mp (List.mem_reverse.mp hc1) with
          ⟨cv, h1, h2, -, -, -, rfl⟩
        exact mkChild_good hp hcur (by omega) h1 h2
      · exact hrest c hc2

/-- Every state ever on the stack during the run satisfies the invariant. -/
theorem iterate_stack_good {p : DfsParams} {min_scale max_scale : ℤ}
    (hp : GoodParams p min_scale max_scale) (st : DfsState)
    (h : ∀ c ∈ st.stack, GoodComb p min_scale max_scale c) (k : ℕ) :
    ∀ c ∈ ((stepState p)^[k] st).stack, GoodComb p min_scale max_scale c := by
  induction k generalizing st with
  | zero => exact h
  | succ k ih =>
    rw [Function.iterate_succ_apply]
    exact ih (stepState p st) (stepState_stack_good hp st h)

/-- Last element of a list of integers with default 0 (the seeds and all
reachable partial sequences are nonempty, so the default is never used). -/
def lastElemD (l : List ℤ) : ℤ := l.getLast?.getD 0

/-- The integer range `[a, b]` as a list, in increasing order. -/
def rangeIcc (a b : ℤ) : List ℤ :=
  (List.range (b + 1 - a).toNat).map (fun k : ℕ => a + (k : ℤ))

theorem mem_rangeIcc (a b x : ℤ) : x ∈ rangeIcc a b ↔ a ≤ x ∧ x ≤ b := by
  unfold rangeIcc
  simp only [List.mem_map, List.mem_range]
  constructor
  · rintro ⟨k, hk, rfl⟩
    omega
  · rintro ⟨h1, h2⟩
    exact ⟨(x - a).toNat, by omega, by omega⟩

/-- Modelled from the spec (testable properties, completeness): brute-force
enumeration of all non-decreasing length-`n` sequences over the scale range
that extend `vals` (each appended element is at least the last element and
at most `max_scale`). -/
def allExtensions (max_scale : ℤ) (n : ℕ) (vals : List ℤ) : List (List ℤ) :=
  if h : vals.length < n then
    ((rangeIcc (lastElemD vals) max_scale).map
      (fun c => allExtensions max_scale n (vals ++ [c]))).flatten
  else [vals]
termination_by n - vals.length
decreasing_by
  rw [List.length_append]
  simp only [List.length_singleton]
  omega

/-- Modelled from the spec (testable properties): the mean window and the
standard-deviation window a full sequence must pass, phrased on the derived
sum bounds `target_sum ± rounding_error_sum` and the SD bounds
`target_sd ± rounding_error_sd`; the SD comparisons use the same exact
square-root encoding as the search. -/
def windowOK (n_1 : ℕ) (tsu tsl tdu tdl : ℚ) (s : List ℤ) : Bool :=
  decide (tsl ≤ (s.sum : ℚ)) && decide ((s.sum : ℚ) ≤ tsu)
    && sqrtGe (ssd s / (n_1 : ℚ)) tdl && !(sqrtGt (ssd s / (n_1 : ℚ)) tdu)

/-- Modelled from the spec (testable properties, completeness): brute-force
enumeration of all non-decreasing length-`n` sequences extending the seed,
filtered by the mean and standard-deviation windows. -/
def bruteForceSearch (max_scale : ℤ) (n n_1 : ℕ) (tsu tsl tdu tdl : ℚ)
    (seed : List ℤ) : List (List ℤ) :=
  (allExtensions max_scale n seed).filter (fun s => windowOK n_1 tsu tsl tdu tdl s)

theorem mem_allExtensions_step (max_scale : ℤ) (n : ℕ) (vals : List ℤ)
    (h : vals.length < n) (s : List ℤ) :
    s ∈ allExtensions max_scale n vals
      ↔ ∃ c : ℤ, (lastElemD vals ≤ c ∧ c ≤ max_scale)
          ∧ s ∈ allExtensions max_scale n (vals ++ [c]) := by
  rw [allExtensions]
  simp only [h, dite_true, List.mem_flatten, List.mem_map]
  constructor
  · rintro ⟨l, ⟨c, hc, rfl⟩, hs⟩
    exact ⟨c, (mem_rangeIcc _ _ _).mp hc, hs⟩
  · rintro ⟨c, hc, hs⟩
    exact ⟨allExtensions max_scale n (vals ++ [c]), ⟨c, (mem_rangeIcc _ _ _).mpr hc, rfl⟩, hs⟩

theorem allExtensions_full (max_scale : ℤ) (n : ℕ) (vals : List ℤ)
    (h : ¬ vals.length < n) :
    allExtensions max_scale n vals = [vals] := by
  rw [allExtensions]
  simp [h]

theorem lastElemD_concat (l : List ℤ) (c : ℤ) : lastElemD (l ++ [c]) = c := by
  unfold lastElemD
  rw [List.getLast?_concat]
  rfl

/-- Full characterization of membership in the brute-force enumeration. -/
theorem mem_allExtensions_iff (max_scale : ℤ) (n : ℕ) :
    ∀ (d : ℕ) (vals : List ℤ), vals.length ≤ n → d = n - vals.length →
      ∀ s : List ℤ,
        (s ∈ allExtensions max_scale n vals
          ↔ ∃ t : List ℤ, s = vals ++ t ∧ vals.length + t.length = n
              ∧ t.Sorted (· ≤ ·) ∧ ∀ x ∈ t, lastElemD vals ≤ x ∧ x ≤ max_scale) := by
  intro d
  induction d with
  | zero =>
    intro vals hle hd s
    have hlen : vals.length = n := by omega
    rw [allExtensions_full _ _ _ (by omega)]
    simp only [List.mem_singleton]
    constructor
    · rintro rfl
      exact ⟨[], by simp, by simp only [List.length_nil]; omega, by simp, by simp⟩
    · rintro ⟨t, rfl, hlt, -, -⟩
      have : t.length = 0 := by omega
      rw [List.length_eq_zero.mp this]
      simp
  | succ k ih =>
    intro vals hle hd s
    have hlen : vals.length < n := by omega
    rw [mem_allExtensions_step _ _ _ hlen]
    constructor
    · rintro ⟨c, ⟨hc1, hc2⟩, hs⟩
      rw [ih (vals ++ [c]) (by rw [List.length_append]; simp; omega)
        (by rw [List.length_append]; simp; omega)] at hs
      rcases hs with ⟨t', rfl, hlt, hsort, hbnd⟩
      rw [List.length_append] at hlt
      simp only [List.length_singleton] at hlt
      refine ⟨c :: t', by simp, by simp; omega, ?_, ?_⟩
      · rw [List.sorted_cons]
        refine ⟨?_, hsort⟩
        intro b hb
        have := hbnd b hb
        rw [lastElemD_concat] at this
        exact this.1
      · intro x hx
        rcases List.mem_cons.mp hx with rfl | hx2
        · exact ⟨hc1, hc2⟩
        · have := hbnd x hx2
          rw [lastElemD_concat] at this
          exact ⟨le_trans hc1 this.1, this.2⟩
    · rintro ⟨t, rfl, hlt, hsort, hbnd⟩
      cases t with
      | nil => simp at hlt; omega
      | cons c t' =>
        have hc := hbnd c (List.mem_cons_self _ _)
        rw [List.sorted_cons] at hsort
        refine ⟨c, hc, ?_⟩
        rw [ih (vals ++ [c]) (by rw [List.length_append]; simp; omega)
          (by rw [List.length_append]; simp at hlt ⊢; omega)]
        refine ⟨t', by simp, ?_, hsort.2, ?_⟩
        · rw [List.length_append]
          simp at hlt ⊢
          omega
        · intro x hx
          rw [lastElemD_concat]
          exact ⟨hsort.1 x hx, (hbnd x (List.mem_cons_of_mem _ hx)).2⟩

theorem list_sum_ge (t : List ℤ) (m : ℤ) (h : ∀ x ∈ t, m ≤ x) :
    (t.length : ℤ) * m ≤ t.sum := by
  induction t with
  | nil => simp
  | cons a t ih =>
    rw [List.sum_cons, List.length_cons]
    have h1 := h a (List.mem_cons_self _ _)
    have h2 := ih (fun x hx => h x (List.mem_cons_of_mem _ hx))
    push_cast
    nlinarith

theorem list_sum_le (t : List ℤ) (m : ℤ) (h : ∀ x ∈ t, x ≤ m) :
    t.sum ≤ (t.length : ℤ) * m := by
  induction t with
  | nil => simp
  | cons a t ih =>
    rw [List.sum_cons, List.length_cons]
    have h1 := h a (List.mem_cons_self _ _)
    have h2 := ih (fun x hx => h x (List.mem_cons_of_mem _ hx))
    push_cast
    nlinarith

theorem sqrtGt_le_mono {x x' b : ℚ} (hxx : x ≤ x') (h : sqrtGt x' b = false) :
    sqrtGt x b = false := by
  simp only [sqrtGt, Bool.or_eq_false_iff, decide_eq_false_iff_not, not_lt] at h ⊢
  exact ⟨h.1, le_trans hxx h.2⟩

theorem windowOK_iff (n_1 : ℕ) (tsu tsl tdu tdl : ℚ) (s : List ℤ) :
    windowOK n_1 tsu tsl tdu tdl s = true
      ↔ tsl ≤ (s.sum : ℚ) ∧ (s.sum : ℚ) ≤ tsu
          ∧ sqrtGe (ssd s / (n_1 : ℚ)) tdl = true
          ∧ sqrtGt (ssd s / (n_1 : ℚ)) tdu = false := by
  simp [windowOK, and_assoc]

/-- The pruned subtree search and the filtered brute-force enumeration
produce the same sequences, from any well-formed partial state shorter
than `n`. -/
theorem explore_eq_bruteForce {p : DfsParams} {min_scale max_scale : ℤ}
    (hp : GoodParams p min_scale max_scale) :
    ∀ (d : ℕ) (cur : Combination), GoodComb p min_scale max_scale cur →
      cur.values.length < p.n → d = p.n - (cur.values.length + 1) →
      ∀ s : List ℤ,
        (s ∈ explore p cur
          ↔ s ∈ allExtensions max_scale p.n cur.values
              ∧ windowOK p.n_1 p.target_sum_upper p.target_sum_lower p.target_sd_upper
                  p.target_sd_lower s = true) := by
  intro d
  induction d with
  | zero =>
    intro cur hc hlen hd s
    -- here the extension step completes the sequence: length + 1 = n
    have hlen1 : cur.values.length + 1 = p.n := by omega
    have hvals_ne : cur.values ≠ [] := by
      have h2l := hc.two_le_len
      intro habs
      rw [habs] at h2l
      simp at h2l
    have hminlast : min_scale ≤ lastD cur := hc.lb _ (getLastD_mem _ hvals_ne)
    have hnl : p.n_1 - cur.values.length = 0 := by
      have := hp.hn1
      omega
    rw [mem_explore_extension hlen, mem_allExtensions_step _ _ _ hlen s]
    constructor
    · rintro ⟨x, hx, hsx⟩
      rcases (mem_candLoop _ _ _ _ _ _).mp hx with ⟨c, hc1, hc2, hbrk, hskip, hsd, rfl⟩
      have hchild := mkChild_good hp hc hlen hc1 hc2
      have hterm : p.n ≤ (mkChild cur (cur.values.length + 1) c).values.length := by
        rw [mkChild_length]
        omega
      rw [explore_terminal hterm] at hsx
      by_cases hacc : sqrtGe ((mkChild cur (cur.values.length + 1) c).running_m2 / (p.n_1 : ℚ))
          p.target_sd_lower = true
      · rw [if_pos hacc] at hsx
        simp only [List.mem_singleton] at hsx
        subst hsx
        have hsval : (mkChild cur (cur.values.length + 1) c).values = cur.values ++ [c] :=
          mkChild_values _ _ _
        refine ⟨⟨c, ⟨hc1, by have := hp.hms1; omega⟩, ?_⟩, ?_⟩
        · rw [hsval, allExtensions_full _ _ _ (by rw [List.length_append]; simp; omega)]
          simp [hsval]
        · rw [hsval, windowOK_iff]
          unfold brkCond at hbrk
          unfold skipLowCond at hskip
          unfold skipSdCond at hsd
          rw [hnl] at hbrk hskip
          rw [hp.hmin_table, scale_sum_table_getD _ _ _ (by omega)] at hbrk
          rw [hp.hmax_table, scale_sum_table_getD _ _ _ (by omega)] at hskip
          have hm2eq : (mkChild cur (cur.values.length + 1) c).running_m2
              = ssd ((mkChild cur (cur.values.length + 1) c).values) := hchild.hm2
          have hsum : ((mkChild cur (cur.values.length + 1) c).values.sum : ℚ)
              = cur.running_sum + (c : ℚ) := by
            rw [hsval, List.sum_append, hc.hsum]
            push_cast
            simp
          rw [hsval] at hsum hm2eq
          push_cast at hbrk hskip
          refine ⟨?_, ?_, ?_, ?_⟩
          · rw [hsum]
            simp only [not_lt, mul_zero, add_zero] at hskip
            linarith
          · rw [hsum]
            simp only [gt_iff_lt, not_lt, mul_zero, add_zero] at hbrk
            linarith
          · rw [← hm2eq]
            exact hacc
          · have : nextM2 cur (cur.values.length + 1) c
                = (mkChild cur (cur.values.length + 1) c).running_m2 := rfl
            rw [← hm2eq, ← this]
            exact Bool.not_eq_true _ ▸ (Bool.eq_false_iff.mpr hsd)
      · rw [if_neg hacc] at hsx
        simp at hsx
    · rintro ⟨⟨c, ⟨hc1, hc2⟩, hs⟩, hwin⟩
      have hc2' : c < p.max_scale_1 := by
        have := hp.hms1
        omega
      have hchild := mkChild_good hp hc hlen hc1 hc2'
      have hsval : (mkChild cur (cur.values.length + 1) c).values = cur.values ++ [c] :=
        mkChild_values _ _ _
      rw [allExtensions_full _ _ _ (by rw [List.length_append]; simp; omega)] at hs
      simp only [List.mem_singleton] at hs
      subst hs
      rw [windowOK_iff] at hwin
      obtain ⟨hw1, hw2, hw3, hw4⟩ := hwin
      have hsum : ((cur.values ++ [c]).sum : ℚ) = cur.running_sum + (c : ℚ) := by
        rw [List.sum_append, hc.hsum]
        push_cast
        simp
      have hm2eq : (mkChild cur (cur.values.length + 1) c).running_m2
          = ssd (cur.values ++ [c]) := by
        rw [hchild.hm2, hsval]
      refine ⟨mkChild cur (cur.values.length + 1) c, ?_, ?_⟩
      · rw [mem_candLoop]
        refine ⟨c, hc1, hc2', ?_, ?_, ?_, rfl⟩
        · unfold brkCond
          rw [hnl, hp.hmin_table, scale_sum_table_getD _ _ _ (by omega)]
          push_cast
          simp only [gt_iff_lt, not_lt, mul_zero, add_zero]
          rw [hsum] at hw2
          linarith
        · unfold skipLowCond
          rw [hnl, hp.hmax_table, scale_sum_table_getD _ _ _ (by omega)]
          push_cast
          simp only [not_lt, mul_zero, add_zero]
          rw [hsum] at hw1
          linarith
        · unfold skipSdCond
          have : nextM2 cur (cur.values.length + 1) c
              = (mkChild cur (cur.values.length + 1) c).running_m2 := rfl
          rw [this, hm2eq]
          rw [hw4]
          simp
      · have hterm : p.n ≤ (mkChild cur (cur.values.length + 1) c).values.length := by
          rw [mkChild_length]
          omega
        rw [explore_terminal hterm]
        rw [hm2eq]
        rw [if_pos (by rw [← hsval] at hw3 ⊢; exact hw3)]
        simp [hsval]
  | succ k ih =>
    intro cur hc hlen hd s
    have hvals_ne : cur.values ≠ [] := by
      have h2l := hc.two_le_len
      intro habs
      rw [habs] at h2l
      simp at h2l
    have hminlast : min_scale ≤ lastD cur := hc.lb _ (getLastD_mem _ hvals_ne)
    have hn1pos : 0 < p.n_1 := by
      have := hp.hn1
      have := hp.two_le_n
      omega
    have hnl_lt : p.n_1 - cur.values.length < p.n := by
      have := hp.hn1
      omega
    rw [mem_explore_extension hlen, mem_allExtensions_step _ _ _ hlen s]
    constructor
    · rintro ⟨x, hx, hsx⟩
      rcases (mem_candLoop _ _ _ _ _ _).mp hx with ⟨c, hc1, hc2, hbrk, hskip, hsd, rfl⟩
      have hchild := mkChild_good hp hc hlen hc1 hc2
      have hchlen : (mkChild cur (cur.values.length + 1) c).values.length < p.n := by
        rw [mkChild_length]
        omega
      rw [ih (mkChild cur (cur.values.length + 1) c) hchild hchlen
        (by rw [mkChild_length]; omega) s] at hsx
      rw [mkChild_values] at hsx
      exact ⟨⟨c, ⟨hc1, by have := hp.hms1; omega⟩, hsx.1⟩, hsx.2⟩
    · rintro ⟨⟨c, ⟨hc1, hc2⟩, hs⟩, hwin⟩
      have hc2' : c < p.max_scale_1 := by
        have := hp.hms1
        omega
      have hchild := mkChild_good hp hc hlen hc1 hc2'
      have hchlen : (mkChild cur (cur.values.length + 1) c).values.length < p.n := by
        rw [mkChild_length]
        omega
      -- decompose the brute-force member to discharge the prune conditions
      have hchr : (cur.values ++ [c]).length ≤ p.n := by
        rw [List.length_append]
        simp
        omega
      rw [mem_allExtensions_iff max_scale p.n (p.n - (cur.values ++ [c]).length)
        (cur.values ++ [c]) hchr rfl s] at hs
      rcases hs with ⟨t, rfl, hlent, hsortt, hbndt⟩
      rw [List.length_append] at hlent
      simp only [List.length_singleton] at hlent
      have htlen : t.length = p.n_1 - cur.values.length := by
        have := hp.hn1
        omega
      have hld : lastElemD cur.values = lastD cur := rfl
      have htlb : ∀ x ∈ t, min_scale ≤ x := by
        intro x hx
        have hx1 := (hbndt x hx).1
        rw [lastElemD_concat] at hx1
        omega
      have htub : ∀ x ∈ t, x ≤ max_scale := fun x hx => (hbndt x hx).2
      rw [windowOK_iff] at hwin
      obtain ⟨hw1, hw2, hw3, hw4⟩ := hwin
      have hsum_split : ((cur.values ++ [c] ++ t).sum : ℤ)
          = cur.values.sum + c + t.sum := by
        rw [List.sum_append, List.sum_append]
        simp
      rw [hsum_split] at hw1 hw2
      have hsum_ge : (min_scale : ℚ) * (t.length : ℚ) ≤ ((t.sum : ℤ) : ℚ) := by
        have h1 : min_scale * (t.length : ℤ) ≤ t.sum := by
          have h2 := list_sum_ge t min_scale htlb
          linarith [mul_comm min_scale (t.length : ℤ), mul_comm (t.length : ℤ) min_scale]
        exact_mod_cast h1
      have hsum_le : ((t.sum : ℤ) : ℚ) ≤ (max_scale : ℚ) * (t.length : ℚ) := by
        have h1 : t.sum ≤ max_scale * (t.length : ℤ) := by
          have h2 := list_sum_le t max_scale htub
          linarith [mul_comm max_scale (t.length : ℤ), mul_comm (t.length : ℤ) max_scale]
        exact_mod_cast h1
      have hm2mono : (mkChild cur (cur.values.length + 1) c).running_m2
          ≤ ssd (cur.values ++ [c] ++ t) := by
        have heq : (mkChild cur (cur.values.length + 1) c).running_m2
            = ssd (cur.values ++ [c]) := by
          rw [hchild.hm2, mkChild_values]
        rw [heq]
        exact ssd_le_ssd_append _ _ (by simp)
      refine ⟨mkChild cur (cur.values.length + 1) c, ?_, ?_⟩
      · rw [mem_candLoop]
        refine ⟨c, by rw [← hld]; exact hc1, hc2', ?_, ?_, ?_, rfl⟩
        · unfold brkCond
          rw [hp.hmin_table, scale_sum_table_getD _ _ _ hnl_lt]
          simp only [gt_iff_lt, not_lt]
          rw [hc.hsum, ← htlen]
          push_cast at hw2 hsum_ge ⊢
          linarith
        · unfold skipLowCond
          rw [hp.hmax_table, scale_sum_table_getD _ _ _ hnl_lt]
          simp only [not_lt]
          rw [hc.hsum, ← htlen]
          push_cast at hw1 hsum_le ⊢
          linarith
        · unfold skipSdCond
          have heq : nextM2 cur (cur.values.length + 1) c
              = (mkChild cur (cur.values.length + 1) c).running_m2 := rfl
          rw [heq]
          have hdiv : (mkChild cur (cur.values.length + 1) c).running_m2 / (p.n_1 : ℚ)
              ≤ ssd (cur.values ++ [c] ++ t) / (p.n_1 : ℚ) := by
            apply div_le_div_of_nonneg_right hm2mono
            positivity
          rw [sqrtGt_le_mono hdiv hw4]
          simp
      · rw [ih (mkChild cur (cur.values.length + 1) c) hchild hchlen
          (by rw [mkChild_length]; omega) _]
        rw [mkChild_values]
        refine ⟨?_, ?_⟩
        · rw [mem_allExtensions_iff max_scale p.n (p.n - (cur.values ++ [c]).length)
            (cur.values ++ [c]) hchr rfl]
          refine ⟨t, rfl, ?_, hsortt, hbndt⟩
          rw [List.length_append]
          simp
          omega
        · rw [windowOK_iff]
          refine ⟨?_, ?_, hw3, hw4⟩
          · rw [hsum_split]
            exact hw1
          · rw [hsum_split]
            exact hw2

/-- Results of the subtree search are full-length, sorted, in-range
sequences. -/
theorem explore_results_good {p : DfsParams} {min_scale max_scale : ℤ}
    (hp : GoodParams p min_scale max_scale) :
    ∀ (d : ℕ) (cur : Combination), GoodComb p min_scale max_scale cur →
      d = p.n - cur.values.length →
      ∀ s ∈ explore p cur,
        s.length = p.n ∧ s.Sorted (· ≤ ·) ∧ ∀ v ∈ s, min_scale ≤ v ∧ v ≤ max_scale := by
  intro d
  induction d with
  | zero =>
    intro cur hc hd s hs
    have hterm : p.n ≤ cur.values.length := by
      have := hc.len_le_n
      omega
    rw [explore_terminal hterm] at hs
    by_cases hacc : sqrtGe (cur.running_m2 / (p.n_1 : ℚ)) p.target_sd_lower = true
    · rw [if_pos hacc] at hs
      simp only [List.mem_singleton] at hs
      subst hs
      refine ⟨le_antisymm hc.len_le_n hterm, hc.sorted, ?_⟩
      intro v hv
      exact ⟨hc.lb v hv, hc.ub v hv⟩
    · rw [if_neg hacc] at hs
      simp at hs
  | succ k ih =>
    intro cur hc hd s hs
    have hlen : cur.values.length < p.n := by omega
    rw [mem_explore_extension hlen] at hs
    rcases hs with ⟨x, hx, hsx⟩
    rcases (mem_candLoop _ _ _ _ _ _).mp hx with ⟨c, hc1, hc2, -, -, -, rfl⟩
    have hchild := mkChild_good hp hc hlen hc1 hc2
    exact ih (mkChild cur (cur.values.length + 1) c) hchild
      (by rw [mkChild_length]; omega) s hsx

/-- The initial statistics of a seed pair, exactly as computed by the
partitioner (main.rs lines 140-143). -/
def seedM2 (i j : ℤ) : ℚ :=
  let running_sum : ℚ := ((i + j : ℤ) : ℚ)
  let current_mean : ℚ := running_sum / 2
  ((i : ℚ) - current_mean) ^ 2 + ((j : ℚ) - current_mean) ^ 2

theorem seed_good {p : DfsParams} {min_scale max_scale : ℤ}
    (hp : GoodParams p min_scale max_scale) (i j : ℤ)
    (h1 : min_scale ≤ i) (h2 : i ≤ j) (h3 : j ≤ max_scale) :
    GoodComb p min_scale max_scale
      ⟨[i, j], ((i + j : ℤ) : ℚ), seedM2 i j⟩ := by
  constructor
  · simp
  · have := hp.two_le_n
    simpa using this
  · rw [List.sorted_cons]
    refine ⟨?_, by simp⟩
    intro b hb
    simp at hb
    omega
  · intro v hv
    simp at hv
    rcases hv with rfl | rfl
    · exact h1
    · omega
  · intro v hv
    simp at hv
    rcases hv with rfl | rfl
    · omega
    · exact h3
  · show ((i + j : ℤ) : ℚ) = (([i, j] : List ℤ).sum : ℚ)
    simp
  · show seedM2 i j = ssd [i, j]
    unfold seedM2 ssd meanQ
    simp only [List.map_cons, List.map_nil, List.sum_cons, List.sum_nil, List.length_cons,
      List.length_nil]
    push_cast
    ring

/-- `count_initial_combinations` (main.rs lines 18-24).  Rust's `i32`
division truncates toward zero and Lean's `Int` division is Euclidean;
the two agree here because the dividend is a product of two consecutive
integers of a nonnegative range size (and the claims only concern
`min_scale ≤ max_scale`). -/
def count_initial_combinations (min_scale max_scale : ℤ) : ℤ :=
  let range_size := max_scale - min_scale + 1
  (range_size * (range_size + 1)) / 2

/-- The seed-generation double loop of `parallel_dfs` (main.rs lines
136-146): all pairs `(i, j)` with `min_scale ≤ i ≤ j ≤ max_scale`, each with
its seed sequence `[i, j]` and initial running statistics. -/
def initial_combinations (min_scale max_scale : ℤ) : List (List ℤ × ℚ × ℚ) :=
  (rangeIcc min_scale max_scale).flatMap (fun i =>
    (rangeIcc i max_scale).map (fun j =>
      ([i, j], ((i + j : ℤ) : ℚ), seedM2 i j)))

/-- The per-branch fan-out of `parallel_dfs` (main.rs lines 183-217),
restricted to its algorithmic content: the multiset of sequences the
branches emit, one `dfs_branch` call per seed. -/
def parallel_results (n : ℕ) (target_sum_upper target_sum_lower target_sd_upper
    target_sd_lower : ℚ) (min_scale_sum max_scale_sum : List ℤ) (n_1 : ℕ)
    (max_scale_1 : ℤ) (combos : List (List ℤ × ℚ × ℚ)) : List (List ℤ) :=
  combos.flatMap (fun combo =>
    dfs_branch combo.1 combo.2.1 combo.2.2 n target_sum_upper target_sum_lower
      target_sd_upper target_sd_lower min_scale_sum max_scale_sum n_1 max_scale_1)

theorem rangeIcc_length (a b : ℤ) : (rangeIcc a b).length = (b + 1 - a).toNat := by
  simp [rangeIcc]

theorem rangeIcc_empty (a b : ℤ) (h : b < a) : rangeIcc a b = [] := by
  unfold rangeIcc
  have : (b + 1 - a).toNat = 0 := by omega
  rw [this]
  simp

theorem rangeIcc_cons (a b : ℤ) (h : a ≤ b) : rangeIcc a b = a :: rangeIcc (a + 1) b := by
  unfold rangeIcc
  have hN : (b + 1 - a).toNat = (b + 1 - (a + 1)).toNat + 1 := by omega
  rw [hN, List.range_succ_eq_map, List.map_cons, List.map_map]
  simp only [Nat.cast_zero, add_zero]
  congr 1
  refine List.map_congr_left ?_
  intro k hk
  simp only [Function.comp_apply]
  push_cast
  ring

theorem initial_combinations_length :
    ∀ (N : ℕ) (mn mx : ℤ), N = (mx + 1 - mn).toNat →
      2 * (initial_combinations mn mx).length = N * (N + 1) := by
  intro N
  induction N with
  | zero =>
    intro mn mx h
    unfold initial_combinations
    rw [rangeIcc_empty mn mx (by omega)]
    simp
  | succ k ih =>
    intro mn mx h
    have hmn : mn ≤ mx := by omega
    unfold initial_combinations
    rw [rangeIcc_cons mn mx hmn, List.flatMap_cons, List.length_append, List.length_map,
      rangeIcc_length]
    have hrest := ih (mn + 1) mx (by omega)
    unfold initial_combinations at hrest
    have hfirst : (mx + 1 - mn).toNat = k + 1 := by omega
    rw [hfirst]
    set r := ((rangeIcc (mn + 1) mx).flatMap (fun i =>
      (rangeIcc i mx).map (fun j => ([i, j], ((i + j : ℤ) : ℚ), seedM2 i j)))).length
    calc 2 * (k + 1 + r) = 2 * (k + 1) + 2 * r := by ring
      _ = 2 * (k + 1) + k * (k + 1) := by rw [hrest]
      _ = (k + 1) * (k + 1 + 1) := by ring

/-- The number of pairs `(i, j)` with `min_scale ≤ i ≤ j ≤ max_scale`. -/
def pairCount (min_scale max_scale : ℤ) : ℕ :=
  ((Finset.Icc min_scale max_scale ×ˢ Finset.Icc min_scale max_scale).filter
    (fun q : ℤ × ℤ => q.1 ≤ q.2)).card

theorem pairCount_eq :
    ∀ (N : ℕ) (mn mx : ℤ), N = (mx + 1 - mn).toNat →
      2 * pairCount mn mx = N * (N + 1) := by
  intro N
  induction N with
  | zero =>
    intro mn mx h
    unfold pairCount
    rw [Finset.Icc_eq_empty (by omega)]
    simp
  | succ k ih =>
    intro mn mx h
    have hmn : mn ≤ mx := by omega
    have hsplit : (Finset.Icc mn mx ×ˢ Finset.Icc mn mx).filter (fun q : ℤ × ℤ => q.1 ≤ q.2)
        = ({mn} ×ˢ Finset.Icc mn mx)
            ∪ ((Finset.Icc (mn + 1) mx ×ˢ Finset.Icc (mn + 1) mx).filter
                (fun q : ℤ × ℤ => q.1 ≤ q.2)) := by
      ext q
      simp only [Finset.mem_filter, Finset.mem_product, Finset.mem_Icc, Finset.mem_union,
        Finset.mem_singleton]
      omega
    unfold pairCount
    rw [hsplit, Finset.card_union_of_disjoint]
    · rw [Finset.card_product, Finset.card_singleton, Int.card_Icc]
      have hrest := ih (mn + 1) mx (by omega)
      unfold pairCount at hrest
      have hfirst : (mx + 1 - mn).toNat = k + 1 := by omega
      rw [hfirst]
      set r := ((Finset.Icc (mn + 1) mx ×ˢ Finset.Icc (mn + 1) mx).filter
        (fun q : ℤ × ℤ => q.1 ≤ q.2)).card
      calc 2 * (1 * (k + 1) + r) = 2 * (k + 1) + 2 * r := by ring
        _ = 2 * (k + 1) + k * (k + 1) := by rw [hrest]
        _ = (k + 1) * (k + 1 + 1) := by ring
    · rw [Finset.disjoint_left]
      rintro q hq1 hq2
      simp only [Finset.mem_product, Finset.mem_singleton, Finset.mem_Icc] at hq1
      simp only [Finset.mem_filter, Finset.mem_product, Finset.mem_Icc] at hq2
      omega

/-- C3: for every run with n ≥ 2 and every seed (i, j) with
min_scale ≤ i ≤ j ≤ max_scale, every sequence in the result of `dfs_branch`
has length exactly n, is monotonically non-decreasing, and every element
lies in [min_scale, max_scale]. -/
theorem c3_results_wellformed (min_scale max_scale : ℤ) (n : ℕ)
    (target_sum_upper target_sum_lower target_sd_upper target_sd_lower : ℚ) (i j : ℤ)
    (hn : 2 ≤ n) (h1 : min_scale ≤ i) (h2 : i ≤ j) (h3 : j ≤ max_scale) :
    ∀ s ∈ dfs_branch [i, j] ((i + j : ℤ) : ℚ) (seedM2 i j) n
        target_sum_upper target_sum_lower target_sd_upper target_sd_lower
        (scale_sum_table min_scale n) (scale_sum_table max_scale n) (n - 1) (max_scale + 1),
      s.length = n ∧ s.Sorted (· ≤ ·) ∧ ∀ v ∈ s, min_scale ≤ v ∧ v ≤ max_scale := by
  intro s hs
  have hp : GoodParams
      ⟨n, target_sum_upper, target_sum_lower, target_sd_upper, target_sd_lower,
        scale_sum_table min_scale n, scale_sum_table max_scale n, n - 1, max_scale + 1⟩
      min_scale max_scale :=
    ⟨hn, rfl, rfl, rfl, rfl, by omega⟩
  have hseed := seed_good hp i j h1 h2 h3
  rw [dfs_branch, mem_dfsRun] at hs
  rcases hs with hs | ⟨c, hc, hsc⟩
  · simp at hs
  · simp only [List.mem_singleton] at hc
    subst hc
    exact explore_results_good hp _ _ hseed rfl s hsc

/-- Closed instance exercising the C3 theorem on an accepted sequence. -/
theorem c3_results_wellformed_witness :
    ([1, 2] : List ℤ).length = 2 ∧ ([1, 2] : List ℤ).Sorted (· ≤ ·)
      ∧ ∀ v ∈ ([1, 2] : List ℤ), 1 ≤ v ∧ v ≤ 2 := by
  have hmem : [1, 2] ∈ dfs_branch [1, 2] ((1 + 2 : ℤ) : ℚ) (seedM2 1 2) 2 10 0 10 0
      (scale_sum_table 1 2) (scale_sum_table 2 2) (2 - 1) (2 + 1) := by
    rw [dfs_branch, mem_dfsRun]
    right
    refine ⟨_, List.mem_singleton_self _, ?_⟩
    rw [explore_terminal (by decide)]
    have hb : sqrtGe (seedM2 1 2 / (((2 - 1 : ℕ)) : ℚ)) (0 : ℚ) = true := by
      norm_num [sqrtGe, seedM2]
    rw [if_pos hb]
    simp
  exact c3_results_wellformed 1 2 2 10 0 10 0 1 2 (by decide) (by decide) (by decide)
    (by decide) [1, 2] hmem

/-- C4: the statistics update for each candidate extension computes exactly
sum' = sum + v, delta = v - sum/count, delta2 = v - sum'/(count+1),
m2' = m2 + delta*delta2, and (the content of the incremental scheme) these
running values remain exactly the sum and the two-pass sum of squared
deviations of the extended sequence. -/
theorem c4_incremental_stats (p : DfsParams) (cur : Combination) (n_left : ℕ) (v0 : ℤ)
    (hcnt : 1 ≤ cur.values.length)
    (hsum : cur.running_sum = (cur.values.sum : ℚ))
    (hm2 : cur.running_m2 = ssd cur.values) :
    ∀ x ∈ candLoop p cur n_left (cur.values.length + 1) v0, ∃ c : ℤ,
      x.values = cur.values ++ [c]
      ∧ x.running_sum = cur.running_sum + (c : ℚ)
      ∧ x.running_m2 = cur.running_m2
          + ((c : ℚ) - cur.running_sum / (cur.values.length : ℚ))
            * ((c : ℚ) - (cur.running_sum + (c : ℚ)) / ((cur.values.length : ℚ) + 1))
      ∧ x.running_sum = (x.values.sum : ℚ)
      ∧ x.running_m2 = ssd x.values := by
  intro x hx
  rcases (mem_candLoop _ _ _ _ _ _).mp hx with ⟨c, -, -, -, -, -, rfl⟩
  have hne : cur.values ≠ [] := by
    intro habs
    rw [habs] at hcnt
    simp at hcnt
  refine ⟨c, mkChild_values _ _ _, rfl, ?_, ?_, ?_⟩
  · show nextM2 cur (cur.values.length + 1) c = _
    unfold nextM2
    push_cast
    ring
  · show cur.running_sum + (c : ℚ) = ((cur.values ++ [c]).sum : ℚ)
    rw [List.sum_append, hsum]
    push_cast
    simp
  · show nextM2 cur (cur.values.length + 1) c = ssd ((mkChild cur (cur.values.length + 1) c).values)
    rw [mkChild_values, ssd_concat _ hne c]
    unfold nextM2
    rw [hm2, hsum]
    push_cast
    ring

/-- Closed instance exercising the C4 theorem on a pushed child. -/
theorem c4_incremental_stats_witness :
    ∃ c : ℤ,
      (mkChild ⟨[1, 2], ((([1, 2] : List ℤ).sum : ℚ)), ssd [1, 2]⟩ 3 2).values
          = [1, 2] ++ [c]
      ∧ (mkChild ⟨[1, 2], ((([1, 2] : List ℤ).sum : ℚ)), ssd [1, 2]⟩ 3 2).running_sum
          = (([1, 2] : List ℤ).sum : ℚ) + (c : ℚ)
      ∧ (mkChild ⟨[1, 2], ((([1, 2] : List ℤ).sum : ℚ)), ssd [1, 2]⟩ 3 2).running_m2
          = ssd [1, 2]
            + ((c : ℚ) - (([1, 2] : List ℤ).sum : ℚ) / (([1, 2] : List ℤ).length : ℚ))
              * ((c : ℚ) - ((([1, 2] : List ℤ).sum : ℚ) + (c : ℚ))
                  / ((([1, 2] : List ℤ).length : ℚ) + 1))
      ∧ (mkChild ⟨[1, 2], ((([1, 2] : List ℤ).sum : ℚ)), ssd [1, 2]⟩ 3 2).running_sum
          = ((mkChild ⟨[1, 2], ((([1, 2] : List ℤ).sum : ℚ)), ssd [1, 2]⟩ 3 2).values.sum : ℚ)
      ∧ (mkChild ⟨[1, 2], ((([1, 2] : List ℤ).sum : ℚ)), ssd [1, 2]⟩ 3 2).running_m2
          = ssd (mkChild ⟨[1, 2], ((([1, 2] : List ℤ).sum : ℚ)), ssd [1, 2]⟩ 3 2).values := by
  have hmem : mkChild ⟨[1, 2], ((([1, 2] : List ℤ).sum : ℚ)), ssd [1, 2]⟩ 3 2
      ∈ candLoop ⟨4, 100, 0, 100, 0, [0, 1, 2, 3], [0, 3, 6, 9], 3, 4⟩
        ⟨[1, 2], ((([1, 2] : List ℤ).sum : ℚ)), ssd [1, 2]⟩ 1 3 2 := by
    rw [mem_candLoop]
    refine ⟨2, le_refl 2, by decide, ?_, ?_, ?_, rfl⟩
    · norm_num [brkCond, List.getD, ssd, meanQ]
    · norm_num [skipLowCond, List.getD, ssd, meanQ]
    · norm_num [skipSdCond, sqrtGt, nextM2, ssd, meanQ]
  exact c4_incremental_stats ⟨4, 100, 0, 100, 0, [0, 1, 2, 3], [0, 3, 6, 9], 3, 4⟩
    ⟨[1, 2], ((([1, 2] : List ℤ).sum : ℚ)), ssd [1, 2]⟩ 1 2 (by decide) rfl rfl
    (mkChild ⟨[1, 2], ((([1, 2] : List ℤ).sum : ℚ)), ssd [1, 2]⟩ 3 2) hmem

/-- C5: in the extension step, candidates are tried in increasing order;
when the min-sum bound exceeds the upper target the whole loop stops (no
larger candidate is tried), whereas the max-sum bound and the SD upper
bound each skip only the current candidate. -/
theorem c5_prune_semantics (p : DfsParams) (cur : Combination) (n_left next_n : ℕ)
    (v : ℤ) :
    (brkCond p cur n_left v →
      ∀ w : ℤ, v ≤ w → candLoop p cur n_left next_n w = [])
    ∧ (v < p.max_scale_1 → ¬ brkCond p cur n_left v → skipLowCond p cur n_left v →
        candLoop p cur n_left next_n v = candLoop p cur n_left next_n (v + 1))
    ∧ (v < p.max_scale_1 → ¬ brkCond p cur n_left v → ¬ skipLowCond p cur n_left v →
        skipSdCond p cur next_n v →
        candLoop p cur n_left next_n v = candLoop p cur n_left next_n (v + 1))
    ∧ (v < p.max_scale_1 → ¬ brkCond p cur n_left v → ¬ skipLowCond p cur n_left v →
        ¬ skipSdCond p cur next_n v →
        candLoop p cur n_left next_n v
          = mkChild cur next_n v :: candLoop p cur n_left next_n (v + 1)) := by
  refine ⟨?_, ?_, ?_, ?_⟩
  · intro hbrk w hvw
    by_cases hw : w < p.max_scale_1
    · have hbrkw := brkCond_mono p cur n_left hvw hbrk
      unfold brkCond at hbrkw
      rw [candLoop]
      simp only [hw, dite_true]
      rw [if_pos hbrkw]
    · rw [candLoop]
      simp only [hw, dite_false]
  · intro hv hbrk hskip
    unfold brkCond at hbrk
    unfold skipLowCond at hskip
    rw [candLoop]
    simp only [hv, dite_true]
    rw [if_neg hbrk, if_pos hskip]
  · intro hv hbrk hskip hsd
    unfold brkCond at hbrk
    unfold skipLowCond at hskip
    unfold skipSdCond at hsd
    rw [candLoop]
    simp only [hv, dite_true]
    rw [if_neg hbrk, if_neg hskip, if_pos hsd]
  · intro hv hbrk hskip hsd
    unfold brkCond at hbrk
    unfold skipLowCond at hskip
    unfold skipSdCond at hsd
    rw [candLoop]
    simp only [hv, dite_true]
    rw [if_neg hbrk, if_neg hskip, if_neg hsd]

/-- Closed instance exercising the C5 theorem: a candidate hitting the
min-sum break empties the remaining loop. -/
theorem c5_prune_semantics_witness :
    brkCond ⟨3, 0, 0, 0, 0, [0, 1, 2], [0, 1, 2], 2, 3⟩ ⟨[1, 1], 2, 0⟩ 0 1
      ∧ candLoop ⟨3, 0, 0, 0, 0, [0, 1, 2], [0, 1, 2], 2, 3⟩ ⟨[1, 1], 2, 0⟩ 0 3 1 = [] :=
  ⟨by norm_num [brkCond, List.getD],
    (c5_prune_semantics ⟨3, 0, 0, 0, 0, [0, 1, 2], [0, 1, 2], 2, 3⟩
      ⟨[1, 1], 2, 0⟩ 0 3 1).1 (by norm_num [brkCond, List.getD]) 1 (le_refl 1)⟩

/-- C6: when the loop pops a state whose sequence has reached length n, it
appends the sequence to the results exactly when sqrt(m2/n_1) clears the
lower SD bound, and in either case pushes no child states. -/
theorem c6_terminal_step (p : DfsParams) (cur : Combination) (rest : List Combination)
    (res : List (List ℤ)) (hlen : cur.values.length = p.n) :
    ((p.target_sd_lower : ℝ) ≤ Real.sqrt ((cur.running_m2 / (p.n_1 : ℚ) : ℚ) : ℝ) →
      stepState p ⟨cur :: rest, res⟩ = ⟨rest, res ++ [cur.values]⟩)
    ∧ (¬ (p.target_sd_lower : ℝ) ≤ Real.sqrt ((cur.running_m2 / (p.n_1 : ℚ) : ℚ) : ℝ) →
      stepState p ⟨cur :: rest, res⟩ = ⟨rest, res⟩) := by
  have hn : p.n ≤ cur.values.length := by omega
  constructor
  · intro hreal
    have hb : sqrtGe (cur.running_m2 / (p.n_1 : ℚ)) p.target_sd_lower = true :=
      (sqrtGe_iff _ _).mpr hreal
    simp only [stepState, if_pos hn, if_pos hb]
  · intro hreal
    have hb : ¬ sqrtGe (cur.running_m2 / (p.n_1 : ℚ)) p.target_sd_lower = true := by
      intro habs
      exact hreal ((sqrtGe_iff _ _).mp habs)
    simp only [stepState, if_pos hn, if_neg hb]

/-- Closed instance exercising the C6 theorem. -/
theorem c6_terminal_step_witness :
    ((0 : ℚ) : ℝ) ≤ Real.sqrt (((0 : ℚ) / ((1 : ℕ) : ℚ) : ℚ) : ℝ)
      ∧ stepState ⟨2, 10, 10, 0, 0, [0, 1], [0, 1], 1, 2⟩
          ⟨[⟨[1, 1], 2, 0⟩], []⟩ = ⟨[], [] ++ [[1, 1]]⟩ := by
  have h0 : ((0 : ℚ) : ℝ) ≤ Real.sqrt (((0 : ℚ) / ((1 : ℕ) : ℚ) : ℚ) : ℝ) := by
    rw [Rat.cast_zero]
    exact Real.sqrt_nonneg _
  exact ⟨h0,
    (c6_terminal_step ⟨2, 10, 10, 0, 0, [0, 1], [0, 1], 1, 2⟩ ⟨[1, 1], 2, 0⟩ [] []
      (by decide)).1 h0⟩

/-- C7: for min_scale ≤ max_scale, `count_initial_combinations` equals
range_size * (range_size + 1) / 2, equals the number of pairs (i, j) with
min_scale ≤ i ≤ j ≤ max_scale, equals the number of seed states the
partitioner enumerates, and in particular equals 28 at (1, 7). -/
theorem c7_count_initial (min_scale max_scale : ℤ) (h : min_scale ≤ max_scale) :
    count_initial_combinations min_scale max_scale
        = (max_scale - min_scale + 1) * ((max_scale - min_scale + 1) + 1) / 2
      ∧ count_initial_combinations min_scale max_scale
          = (pairCount min_scale max_scale : ℤ)
      ∧ count_initial_combinations min_scale max_scale
          = ((initial_combinations min_scale max_scale).length : ℤ)
      ∧ count_initial_combinations 1 7 = 28 := by
  set r : ℤ := max_scale - min_scale + 1 with hr
  have hr1 : 1 ≤ r := by omega
  have h2c : count_initial_combinations min_scale max_scale * 2 = r * (r + 1) := by
    show r * (r + 1) / 2 * 2 = r * (r + 1)
    apply Int.ediv_mul_cancel
    rcases Int.even_mul_succ_self r with ⟨m, hm⟩
    exact ⟨m, by omega⟩
  have hN : ((max_scale + 1 - min_scale).toNat : ℤ) = r := by omega
  have h2p : 2 * (pairCount min_scale max_scale : ℤ) = r * (r + 1) := by
    have := pairCount_eq (max_scale + 1 - min_scale).toNat min_scale max_scale rfl
    have hcast : (2 : ℤ) * (pairCount min_scale max_scale : ℤ)
        = ((max_scale + 1 - min_scale).toNat : ℤ)
          * (((max_scale + 1 - min_scale).toNat : ℤ) + 1) := by
      exact_mod_cast this
    rw [hN] at hcast
    exact hcast
  have h2l : 2 * ((initial_combinations min_scale max_scale).length : ℤ) = r * (r + 1) := by
    have := initial_combinations_length (max_scale + 1 - min_scale).toNat min_scale
      max_scale rfl
    have hcast : (2 : ℤ) * ((initial_combinations min_scale max_scale).length : ℤ)
        = ((max_scale + 1 - min_scale).toNat : ℤ)
          * (((max_scale + 1 - min_scale).toNat : ℤ) + 1) := by
      exact_mod_cast this
    rw [hN] at hcast
    exact hcast
  refine ⟨rfl, by linarith, by linarith, by decide⟩

/-- Closed instance exercising the C7 theorem. -/
theorem c7_count_initial_witness :
    count_initial_combinations 1 7 = (7 - 1 + 1) * ((7 - 1 + 1) + 1) / 2
      ∧ count_initial_combinations 1 7 = (pairCount 1 7 : ℤ)
      ∧ count_initial_combinations 1 7 = ((initial_combinations 1 7).length : ℤ)
      ∧ count_initial_combinations 1 7 = 28 :=
  c7_count_initial 1 7 (by decide)

/-- C8: for any parameters and any seed, `dfs_branch` terminates: iterating
the loop step empties the work stack after finitely many iterations, and
the final results are exactly the branch's batch. -/
theorem c8_terminates (start_combination : List ℤ)
    (running_sum_init running_m2_init : ℚ) (n : ℕ)
    (target_sum_upper target_sum_lower target_sd_upper target_sd_lower : ℚ)
    (min_scale_sum max_scale_sum : List ℤ) (n_1 : ℕ) (max_scale_1 : ℤ) :
    ∃ k : ℕ,
      (stepState ⟨n, target_sum_upper, target_sum_lower, target_sd_upper, target_sd_lower,
        min_scale_sum, max_scale_sum, n_1, max_scale_1⟩)^[k]
          ⟨[⟨start_combination, running_sum_init, running_m2_init⟩], []⟩
        = ⟨[], dfs_branch start_combination running_sum_init running_m2_init n
            target_sum_upper target_sum_lower target_sd_upper target_sd_lower
            min_scale_sum max_scale_sum n_1 max_scale_1⟩ :=
  dfsRun_iterate _ _ _

/-- C9: for fixed run parameters, the set of accepted sequences across all
branches is deterministic: any order of branch completion (any permutation
of the partition list) yields exactly the same set of sequences. -/
theorem c9_deterministic_set (n : ℕ)
    (target_sum_upper target_sum_lower target_sd_upper target_sd_lower : ℚ)
    (min_scale_sum max_scale_sum : List ℤ) (n_1 : ℕ) (max_scale_1 : ℤ)
    (combos1 combos2 : List (List ℤ × ℚ × ℚ)) (hperm : combos1.Perm combos2) :
    ∀ s : List ℤ,
      s ∈ parallel_results n target_sum_upper target_sum_lower target_sd_upper
          target_sd_lower min_scale_sum max_scale_sum n_1 max_scale_1 combos1
        ↔ s ∈ parallel_results n target_sum_upper target_sum_lower target_sd_upper
            target_sd_lower min_scale_sum max_scale_sum n_1 max_scale_1 combos2 := by
  intro s
  unfold parallel_results
  simp only [List.mem_flatMap]
  constructor
  · rintro ⟨a, ha, hs⟩
    exact ⟨a, hperm.mem_iff.mp ha, hs⟩
  · rintro ⟨a, ha, hs⟩
    exact ⟨a, hperm.mem_iff.mpr ha, hs⟩

/-- Closed instance exercising the C9 theorem: two branch orders, same
membership of an accepted sequence. -/
theorem c9_deterministic_set_witness :
    [1, 1] ∈ parallel_results 2 10 0 10 0 [0, 1] [0, 2] 1 3
        [([1, 1], ((1 + 1 : ℤ) : ℚ), seedM2 1 1), ([1, 2], ((1 + 2 : ℤ) : ℚ), seedM2 1 2)]
      ↔ [1, 1] ∈ parallel_results 2 10 0 10 0 [0, 1] [0, 2] 1 3
          [([1, 2], ((1 + 2 : ℤ) : ℚ), seedM2 1 2), ([1, 1], ((1 + 1 : ℤ) : ℚ), seedM2 1 1)] :=
  c9_deterministic_set 2 10 0 10 0 [0, 1] [0, 2] 1 3 _ _
    (List.Perm.swap ([1, 2], ((1 + 2 : ℤ) : ℚ), seedM2 1 2)
      ([1, 1], ((1 + 1 : ℤ) : ℚ), seedM2 1 1) []) [1, 1]

/-- C10: under n ≥ 2 and a length-2 seed, every state on the work stack at
any point of the run has a nonempty values vector, and for every state of
length below n the index n_left = (n-1) - length is at most n-3 and is in
bounds for both bound tables (each of length n). -/
theorem c10_stack_safety (min_scale max_scale : ℤ) (n : ℕ)
    (target_sum_upper target_sum_lower target_sd_upper target_sd_lower : ℚ) (i j : ℤ)
    (hn : 2 ≤ n) (h1 : min_scale ≤ i) (h2 : i ≤ j) (h3 : j ≤ max_scale) (k : ℕ) :
    ∀ c ∈ ((stepState ⟨n, target_sum_upper, target_sum_lower, target_sd_upper,
        target_sd_lower, scale_sum_table min_scale n, scale_sum_table max_scale n,
        n - 1, max_scale + 1⟩)^[k]
        ⟨[⟨[i, j], ((i + j : ℤ) : ℚ), seedM2 i j⟩], []⟩).stack,
      c.values ≠ []
      ∧ (c.values.length < n →
          (n - 1) - c.values.length ≤ n - 3
          ∧ (n - 1) - c.values.length < (scale_sum_table min_scale n).length
          ∧ (n - 1) - c.values.length < (scale_sum_table max_scale n).length) := by
  intro c hc
  have hp : GoodParams
      ⟨n, target_sum_upper, target_sum_lower, target_sd_upper, target_sd_lower,
        scale_sum_table min_scale n, scale_sum_table max_scale n, n - 1, max_scale + 1⟩
      min_scale max_scale :=
    ⟨hn, rfl, rfl, rfl, rfl, by omega⟩
  have hseed := seed_good hp i j h1 h2 h3
  have hg := iterate_stack_good hp ⟨[⟨[i, j], ((i + j : ℤ) : ℚ), seedM2 i j⟩], []⟩
    (by
      intro c' hc'
      simp only [List.mem_singleton] at hc'
      subst hc'
      exact hseed) k c hc
  have h2l := hg.two_le_len
  refine ⟨?_, ?_⟩
  · intro habs
    rw [habs] at h2l
    simp at h2l
  · intro hlt
    rw [scale_sum_table_length, scale_sum_table_length]
    omega

/-- Closed instance exercising the C10 theorem at the initial stack. -/
theorem c10_stack_safety_witness :
    (⟨[1, 2], ((1 + 2 : ℤ) : ℚ), seedM2 1 2⟩ : Combination).values ≠ []
      ∧ ((⟨[1, 2], ((1 + 2 : ℤ) : ℚ), seedM2 1 2⟩ : Combination).values.length < 3 →
          (3 - 1) - (⟨[1, 2], ((1 + 2 : ℤ) : ℚ), seedM2 1 2⟩ : Combination).values.length
              ≤ 3 - 3
          ∧ (3 - 1) - (⟨[1, 2], ((1 + 2 : ℤ) : ℚ), seedM2 1 2⟩ : Combination).values.length
              < (scale_sum_table 1 3).length
          ∧ (3 - 1) - (⟨[1, 2], ((1 + 2 : ℤ) : ℚ), seedM2 1 2⟩ : Combination).values.length
              < (scale_sum_table 2 3).length) :=
  c10_stack_safety 1 2 3 10 0 10 0 1 2 (by decide) (by decide) (by decide) (by decide) 0
    ⟨[1, 2], ((1 + 2 : ℤ) : ℚ), seedM2 1 2⟩ (by simp)

/-- C1 (as stated, refuted at n = 2): the run with n = 2,
min_scale = max_scale = 1, target_mean = 5, rounding_error_mean = 0,
target_sd = 0, rounding_error_sd = 0 (so target_sum_upper =
5*2 + 0*2 = 10) accepts the seed sequence [1, 1], whose mean 1 violates
|sum/n - target_mean| ≤ rounding_error_mean. -/
theorem c1_counterexample :
    [1, 1] ∈ dfs_branch [1, 1] ((1 + 1 : ℤ) : ℚ) (seedM2 1 1) 2
        (5 * 2 + 0 * 2) (5 * 2 - 0 * 2) (0 + 0) (0 - 0)
        (scale_sum_table 1 2) (scale_sum_table 1 2) (2 - 1) (1 + 1)
      ∧ ¬ |((([1, 1] : List ℤ).sum : ℝ)) / (2 : ℝ) - (5 : ℝ)| ≤ (0 : ℝ) := by
  constructor
  · rw [dfs_branch, mem_dfsRun]
    right
    refine ⟨_, List.mem_singleton_self _, ?_⟩
    rw [explore_terminal (by decide)]
    have hb : sqrtGe (seedM2 1 1 / (((2 - 1 : ℕ)) : ℚ)) ((0 : ℚ) - 0) = true := by
      norm_num [sqrtGe, seedM2]
    rw [if_pos hb]
    simp
  · norm_num

/-- C1 (amended: n ≥ 3; for n = 2 the terminal check applies no mean or
upper-SD test to the seed): every sequence accepted by the search satisfies
|sum(seq)/n - target_mean| ≤ rounding_error_mean and
|sqrt(ssd(seq)/(n-1)) - target_sd| ≤ rounding_error_sd, where the bounds
are derived as target_sum = target_mean * n and rounding_error_sum =
rounding_error_mean * n. -/
theorem c1_amended_accuracy (min_scale max_scale : ℤ) (n : ℕ)
    (target_mean target_sd rounding_error_mean rounding_error_sd : ℚ) (i j : ℤ)
    (hn : 3 ≤ n) (h1 : min_scale ≤ i) (h2 : i ≤ j) (h3 : j ≤ max_scale) :
    ∀ s ∈ dfs_branch [i, j] ((i + j : ℤ) : ℚ) (seedM2 i j) n
        (target_mean * n + rounding_error_mean * n)
        (target_mean * n - rounding_error_mean * n)
        (target_sd + rounding_error_sd) (target_sd - rounding_error_sd)
        (scale_sum_table min_scale n) (scale_sum_table max_scale n) (n - 1) (max_scale + 1),
      |(s.sum : ℝ) / (n : ℝ) - (target_mean : ℝ)| ≤ (rounding_error_mean : ℝ)
        ∧ |Real.sqrt ((ssd s : ℝ) / ((n : ℝ) - 1)) - (target_sd : ℝ)|
            ≤ (rounding_error_sd : ℝ) := by
  intro s hs
  have hp : GoodParams
      ⟨n, target_mean * n + rounding_error_mean * n,
        target_mean * n - rounding_error_mean * n,
        target_sd + rounding_error_sd, target_sd - rounding_error_sd,
        scale_sum_table min_scale n, scale_sum_table max_scale n, n - 1, max_scale + 1⟩
      min_scale max_scale :=
    ⟨by show (2 : ℕ) ≤ n; omega, rfl, rfl, rfl, rfl, by omega⟩
  have hseed := seed_good hp i j h1 h2 h3
  rw [dfs_branch, mem_dfsRun] at hs
  rcases hs with hs | ⟨c, hc, hsc⟩
  · simp at hs
  · simp only [List.mem_singleton] at hc
    subst hc
    rw [explore_eq_bruteForce hp (n - 3) _ hseed (by show 2 < n; omega) rfl s] at hsc
    obtain ⟨-, hwin⟩ := hsc
    rw [windowOK_iff] at hwin
    obtain ⟨hw1, hw2, hw3, hw4⟩ := hwin
    dsimp only at hw1 hw2 hw3 hw4
    have hn0 : (0 : ℚ) < (n : ℚ) := by
      exact_mod_cast (by omega : 0 < n)
    constructor
    · have hub : (s.sum : ℚ) / (n : ℚ) ≤ target_mean + rounding_error_mean := by
        rw [div_le_iff₀ hn0, add_mul]
        linarith
      have hlb : target_mean - rounding_error_mean ≤ (s.sum : ℚ) / (n : ℚ) := by
        rw [le_div_iff₀ hn0, sub_mul]
        linarith
      have hQ : |(s.sum : ℚ) / (n : ℚ) - target_mean| ≤ rounding_error_mean :=
        abs_le.mpr ⟨by linarith, by linarith⟩
      exact_mod_cast hQ
    · have hl := (sqrtGe_iff _ _).mp hw3
      have hu := (sqrtGt_eq_false_iff _ _).mp hw4
      have hcast : ((ssd s / (((n - 1 : ℕ)) : ℚ) : ℚ) : ℝ) = (ssd s : ℝ) / ((n : ℝ) - 1) := by
        have hn1 : (1 : ℕ) ≤ n := by omega
        push_cast [Nat.cast_sub hn1]
        ring
      rw [hcast] at hl hu
      rw [abs_le]
      push_cast at hl hu
      constructor
      · linarith
      · linarith

/-- Closed instance exercising the amended C1 theorem on an accepted
sequence. -/
theorem c1_amended_accuracy_witness :
    |((([1, 1, 1] : List ℤ).sum : ℝ)) / (((3 : ℕ)) : ℝ) - ((1 : ℚ) : ℝ)| ≤ (((0 : ℚ)) : ℝ)
      ∧ |Real.sqrt ((ssd [1, 1, 1] : ℝ) / ((((3 : ℕ)) : ℝ) - 1)) - ((0 : ℚ) : ℝ)|
          ≤ (((0 : ℚ)) : ℝ) := by
  have hp : GoodParams
      ⟨3, (1 : ℚ) * ((3 : ℕ) : ℚ) + (0 : ℚ) * ((3 : ℕ) : ℚ),
        (1 : ℚ) * ((3 : ℕ) : ℚ) - (0 : ℚ) * ((3 : ℕ) : ℚ),
        (0 : ℚ) + 0, (0 : ℚ) - 0,
        scale_sum_table 1 3, scale_sum_table 1 3, 3 - 1, 1 + 1⟩ 1 1 :=
    ⟨by decide, rfl, rfl, rfl, rfl, by decide⟩
  have hseed := seed_good hp 1 1 (by decide) (by decide) (by decide)
  have hmem : [1, 1, 1] ∈ dfs_branch [1, 1] ((1 + 1 : ℤ) : ℚ) (seedM2 1 1) 3
      ((1 : ℚ) * ((3 : ℕ) : ℚ) + (0 : ℚ) * ((3 : ℕ) : ℚ))
      ((1 : ℚ) * ((3 : ℕ) : ℚ) - (0 : ℚ) * ((3 : ℕ) : ℚ))
      ((0 : ℚ) + 0) ((0 : ℚ) - 0)
      (scale_sum_table 1 3) (scale_sum_table 1 3) (3 - 1) (1 + 1) := by
    rw [dfs_branch, mem_dfsRun]
    right
    refine ⟨_, List.mem_singleton_self _, ?_⟩
    rw [explore_eq_bruteForce hp 0 _ hseed (by decide) rfl]
    constructor
    · rw [mem_allExtensions_iff 1 3 1 [1, 1] (by decide) rfl]
      refine ⟨[1], rfl, by decide, by decide, ?_⟩
      intro x hx
      simp only [List.mem_singleton] at hx
      subst hx
      exact ⟨by decide, by decide⟩
    · rw [windowOK_iff]
      refine ⟨?_, ?_, ?_, ?_⟩
      · norm_num
      · norm_num
      · norm_num [sqrtGe, ssd, meanQ]
      · norm_num [sqrtGt, ssd, meanQ]
  exact c1_amended_accuracy 1 1 3 1 0 0 0 1 1 (by decide) (by decide) (by decide)
    (by decide) [1, 1, 1] hmem

/-- C2 (as stated, refuted at n = 2): with n = 2 the search accepts the
seed [1, 1] although the brute-force enumeration with the same windows
(sum window [10, 10], SD window [0, 0]) rejects it, so the two sets
differ. -/
theorem c2_counterexample :
    [1, 1] ∈ dfs_branch [1, 1] ((1 + 1 : ℤ) : ℚ) (seedM2 1 1) 2 10 10 0 0
        (scale_sum_table 1 2) (scale_sum_table 1 2) (2 - 1) (1 + 1)
      ∧ [1, 1] ∉ bruteForceSearch 1 2 (2 - 1) 10 10 0 0 [1, 1] := by
  constructor
  · rw [dfs_branch, mem_dfsRun]
    right
    refine ⟨_, List.mem_singleton_self _, ?_⟩
    rw [explore_terminal (by decide)]
    have hb : sqrtGe (seedM2 1 1 / (((2 - 1 : ℕ)) : ℚ)) (0 : ℚ) = true := by
      norm_num [sqrtGe, seedM2]
    rw [if_pos hb]
    simp
  · intro habs
    rw [bruteForceSearch, List.mem_filter] at habs
    have hwin := habs.2
    rw [windowOK_iff] at hwin
    have h10 := hwin.1
    norm_num [List.sum_cons, List.sum_nil] at h10

/-- C2 (amended: n ≥ 3; at n = 2 the seed bypasses the mean and upper-SD
filters): the set of sequences returned by the pruned search equals the
set obtained by brute-force enumeration of all non-decreasing length-n
extensions of the seed over the scale range, filtered by the same mean and
standard-deviation windows. -/
theorem c2_amended_equiv (min_scale max_scale : ℤ) (n : ℕ)
    (target_sum_upper target_sum_lower target_sd_upper target_sd_lower : ℚ) (i j : ℤ)
    (hn : 3 ≤ n) (h1 : min_scale ≤ i) (h2 : i ≤ j) (h3 : j ≤ max_scale) :
    ∀ s : List ℤ,
      s ∈ dfs_branch [i, j] ((i + j : ℤ) : ℚ) (seedM2 i j) n
          target_sum_upper target_sum_lower target_sd_upper target_sd_lower
          (scale_sum_table min_scale n) (scale_sum_table max_scale n) (n - 1) (max_scale + 1)
        ↔ s ∈ bruteForceSearch max_scale n (n - 1)
            target_sum_upper target_sum_lower target_sd_upper target_sd_lower [i, j] := by
  intro s
  have hp : GoodParams
      ⟨n, target_sum_upper, target_sum_lower, target_sd_upper, target_sd_lower,
        scale_sum_table min_scale n, scale_sum_table max_scale n, n - 1, max_scale + 1⟩
      min_scale max_scale :=
    ⟨by show (2 : ℕ) ≤ n; omega, rfl, rfl, rfl, rfl, by omega⟩
  have hseed := seed_good hp i j h1 h2 h3
  rw [dfs_branch, mem_dfsRun, bruteForceSearch, List.mem_filter]
  constructor
  · rintro (hs | ⟨c, hc, hsc⟩)
    · simp at hs
    · simp only [List.mem_singleton] at hc
      subst hc
      rw [explore_eq_bruteForce hp (n - 3) _ hseed (by show 2 < n; omega) rfl s] at hsc
      exact hsc
  · intro hs
    right
    refine ⟨_, List.mem_singleton_self _, ?_⟩
    rw [explore_eq_bruteForce hp (n - 3) _ hseed (by show 2 < n; omega) rfl s]
    exact hs

/-- Closed instance exercising the amended C2 theorem. -/
theorem c2_amended_equiv_witness :
    [1, 1, 1] ∈ dfs_branch [1, 1] ((1 + 1 : ℤ) : ℚ) (seedM2 1 1) 3 10 0 10 0
        (scale_sum_table 1 3) (scale_sum_table 1 3) (3 - 1) (1 + 1)
      ↔ [1, 1, 1] ∈ bruteForceSearch 1 3 (3 - 1) 10 0 10 0 [1, 1] :=
  c2_amended_equiv 1 1 3 10 0 10 0 1 1 (by decide) (by decide) (by decide) (by decide)
    [1, 1, 1]

end ClosureGround
